import Mathlib

/-!
Verification of the specsmith OpenAPI context-gathering core
(src/cli/src/specsmith/ai/openapi.py) against its specification.

Text is modelled as lists of characters (Python strings restricted to the
ASCII fragment the repository manipulates).  Filesystem primitives
(existence checks, globbing, reading) and the two external libraries the
module calls (the YAML parser and the regular-expression match counter
used only for the heuristic statistics) are explicitly out of scope for
the core per the specification and are modelled as oracles supplied in a
structure; every piece of repository logic built on top of them is
translated directly from the source.
-/

namespace Specsmith

abbrev Str := List Char

/-- Whitespace as matched by Python's str.strip and the regex class
backslash-s, restricted to ASCII. -/
def pyWs (c : Char) : Bool :=
  c = ' ' || c = '\t' || c = '\n' || c = '\r' || c = '\x0b' || c = '\x0c'

/-- Drop leading whitespace (left part of Python str.strip). -/
def pyStripL (cs : Str) : Str := cs.dropWhile pyWs

/-- Drop trailing whitespace (right part of Python str.strip). -/
def pyStripR (cs : Str) : Str := (cs.reverse.dropWhile pyWs).reverse

/-- Python str.strip with no arguments: remove whitespace at both ends. -/
def pyStrip (cs : Str) : Str := pyStripR (pyStripL cs)

/-- Python str.strip with an explicit character set of one slash,
as used by the slug function. -/
def stripSlashes (cs : Str) : Str :=
  ((cs.dropWhile (fun c => c = '/')).reverse.dropWhile (fun c => c = '/')).reverse

/-- Python str.lower restricted to ASCII. -/
def lowerS (cs : Str) : Str := cs.map Char.toLower

/-- Python substring containment (the `in` operator on str): an empty
needle is contained in everything. -/
def isSubstr (needle : Str) : Str → Bool
  | [] => needle.isEmpty
  | c :: rest => needle.isPrefixOf (c :: rest) || isSubstr needle rest

-- ── _endpoint_slug ───────────────────────────────────────────────────

/-- Characters kept by the slug's character filter, the regex class of
ASCII letters, digits and hyphen. -/
def isSlugKeep (c : Char) : Bool := c.isAlpha || c.isDigit || c = '-'

/-- Translation of _endpoint_slug: strip surrounding slashes from the
path, replace slashes with hyphens, delete braces, delete every
character outside letters, digits and hyphen, lowercase, then prefix
the lowercased method and a hyphen. -/
def endpointSlug (method path : Str) : Str :=
  let slug0 := (stripSlashes path).map (fun c => if c = '/' then '-' else c)
  let slug1 := slug0.filter (fun c => !(c = '{') && !(c = '}'))
  let slug2 := (slug1.filter isSlugKeep).map Char.toLower
  lowerS method ++ '-' :: slug2

/-- Character class of the tail of the slug regex: lowercase letters,
digits and hyphen. -/
def isSlugTail (c : Char) : Bool := c.isLower || c.isDigit || c = '-'

/-- The anchored regex from the spec, lowercase letters then a hyphen
then letters, digits and hyphens: deterministic matcher (the first
hyphen necessarily ends the leading letter run). -/
def matchesSlugShape (s : Str) : Bool :=
  match s.takeWhile Char.isLower, s.drop (s.takeWhile Char.isLower).length with
  | [], _ => false
  | _ :: _, '-' :: r => r.all isSlugTail
  | _ :: _, _ => false

-- ── _strip_yaml_fences ───────────────────────────────────────────────

/-- Translation of _strip_yaml_fences: strip whitespace, then one
leading fence (yaml, yml or bare variants, checked in that order), then
one trailing fence, re-stripping after each removal. -/
def stripYamlFences (text : Str) : Str :=
  let t := pyStrip text
  let t1 :=
    if ("```yaml".toList).isPrefixOf t then pyStrip (t.drop 7)
    else if ("```yml".toList).isPrefixOf t then pyStrip (t.drop 6)
    else if ("```".toList).isPrefixOf t then pyStrip (t.drop 3)
    else t
  if ("```".toList).isSuffixOf t1 then pyStrip (t1.take (t1.length - 3)) else t1

-- ── _parse_endpoint_docs ─────────────────────────────────────────────
-- The splitter regex is three hyphens, optional whitespace, the literal
-- FILE and a colon, optional whitespace, a lazy capture of at least one
-- non-newline character ending in a dot-m-d suffix, optional whitespace
-- and three hyphens.  It is embedded below with Python's semantics:
-- leftmost match, greedy whitespace runs (deterministic before the two
-- literals, backtracked before the lazy group), shortest capture first.

def dashes : Str := ['-', '-', '-']

/-- Drop a maximal run of whitespace. -/
def dropWs (cs : Str) : Str := cs.dropWhile pyWs

/-- Length of the maximal leading whitespace run. -/
def wsRun (cs : Str) : Nat := (cs.takeWhile pyWs).length

/-- Lazy search for the capture group: grow the candidate one character
at a time (never across a newline); succeed as soon as the candidate is
at least four characters, ends in dot-m-d, and is followed by optional
whitespace and three hyphens.  The accumulator holds the candidate in
reverse.  Returns the capture and the text after the closing hyphens. -/
def tryGroup : Str → Str → Option (Str × Str)
  | _, [] => none
  | acc, ch :: rs =>
    if ch = '\n' then none
    else
      let acc2 := ch :: acc
      if ['d', 'm', '.'].isPrefixOf acc2 && decide (4 ≤ acc2.length)
          && dashes.isPrefixOf (dropWs rs) then
        some (acc2.reverse, (dropWs rs).drop 3)
      else tryGroup acc2 rs

/-- Backtracking over the greedy whitespace run before the capture:
try consuming k whitespace characters, from the maximal run down to
none, and take the first capture that succeeds. -/
def tryKs : Nat → Str → Option (Str × Str)
  | 0, cs => tryGroup [] cs
  | k + 1, cs =>
    match tryGroup [] (cs.drop (k + 1)) with
    | some r => some r
    | none => tryKs k cs

/-- Match the delimiter regex at the start of the text: three hyphens,
whitespace, the FILE label and colon, then the backtracked capture.
Returns the captured filename and the rest of the text. -/
def matchAt (cs : Str) : Option (Str × Str) :=
  if dashes.isPrefixOf cs then
    let c1 := dropWs (cs.drop 3)
    if ("FILE:".toList).isPrefixOf c1 then
      let c2 := c1.drop 5
      tryKs (wsRun c2) c2
    else none
  else none

/-- Leftmost match: the text before the match, the capture, and the
text after the match. -/
def findMatch : Str → Option (Str × Str × Str)
  | [] => none
  | c :: rest =>
    match matchAt (c :: rest) with
    | some (g, r) => some ([], g, r)
    | none => (findMatch rest).map (fun x => (c :: x.1, x.2.1, x.2.2))

/-- Successive non-overlapping matches, as re.split produces them: each
capture paired with the text up to the next match (or the tail after
the last one).  Structurally recursive on a fuel bound that the caller
sets above the text length, which the scan can never reach since every
match consumes at least one character. -/
def collectAux : Nat → Str → Str → List (Str × Str)
  | 0, g, cs => [(g, cs)]
  | fuel + 1, g, cs =>
    match findMatch cs with
    | none => [(g, cs)]
    | some (before, g2, rest) => (g, before) :: collectAux fuel g2 rest

/-- Translation of _parse_endpoint_docs: split on the delimiter regex,
discard the text before the first delimiter, pair each captured
filename with the following chunk, strip both, and keep only the pairs
where both are non-empty. -/
def parseEndpointDocs (text : Str) : List (Str × Str) :=
  match findMatch text with
  | none => []
  | some (_, g, rest) =>
    (collectAux (rest.length + 1) g rest).filterMap fun p =>
      let f := pyStrip p.1
      let c := pyStrip p.2
      if f.isEmpty || c.isEmpty then none else some (f, c)

-- ── validate_openapi_yaml ────────────────────────────────────────────
-- The YAML library is an external collaborator; its parse result is
-- modelled as an inductive value and the parser itself as an oracle
-- argument (returning none where the library raises a YAMLError).

/-- Result of yaml.safe_load: a null, scalar, sequence or mapping. -/
inductive Yaml where
  | null : Yaml
  | bool (b : Bool) : Yaml
  | num (n : Int) : Yaml
  | str (s : Str) : Yaml
  | seq (items : List Yaml) : Yaml
  | dict (entries : List (Yaml × Yaml)) : Yaml

/-- Python isinstance check against dict. -/
def Yaml.isDict : Yaml → Bool
  | .dict _ => true
  | _ => false

/-- Python key membership for a string literal key: some key of the
mapping is a string equal to it (keys of other types never compare
equal to a string). -/
def Yaml.hasStrKey (k : Str) : Yaml → Bool
  | .dict entries =>
    entries.any (fun e => match e.1 with | .str s => s == k | _ => false)
  | _ => false

/-- Translation of validate_openapi_yaml over a parser oracle: parse,
and require a mapping carrying the top-level openapi key; a parse
failure is caught and yields false. -/
def validateOpenapiYaml (parse : Str → Option Yaml) (text : Str) : Bool :=
  match parse text with
  | none => false
  | some data => data.isDict && data.hasStrKey ("openapi".toList)

-- ── Filesystem model ─────────────────────────────────────────────────

/-- Outcome of Path.read_text: the decoded content, an OSError (the
only exception the repository catches), or a UnicodeDecodeError from
undecodable bytes (a ValueError, which no handler in the module
catches). -/
inductive ReadResult where
  | ok (content : Str) : ReadResult
  | osErr : ReadResult
  | decodeErr : ReadResult
deriving DecidableEq

/-- Filesystem oracle.  Paths are strings relative to the project root
with slash-separated components, so Path.relative_to(project_root) is
the identity and Path equality is string equality.  The glob and
directory-walk primitives are external collaborators (out of scope per
the spec) and appear as oracle fields; everything built on them is
translated from the source. -/
structure Fs where
  /-- Path.exists relative to the project root. -/
  present : Str → Bool
  /-- Path.is_file relative to the project root. -/
  isFile : Str → Bool
  /-- project_root.glob for one pattern, before the source's sorting. -/
  glob : Str → List Str
  /-- Path.read_text. -/
  read : Str → ReadResult
  /-- Output of the directory-tree summary builder, which only walks
  directories (no claim concerns its text). -/
  tree : Str
  /-- project_root.name. -/
  name : Str

/-- Oracle for the two regular-expression counting helpers: the number
of matches re.findall finds in one file content for the endpoint
alternation and for the schema-declaration pattern.  The regex engine
is an external library; the summation logic around it is translated. -/
structure ReCounts where
  endpointMatches : Str → Nat
  schemaMatches : Str → Nat

-- ── Framework detection tables (_SKIP_DIRS, _FRAMEWORK_MARKERS) ──────

def skipDirs : List Str :=
  ["node_modules", "__pycache__", "venv", ".venv", "dist", "build",
   "target", ".gradle", ".idea", ".git", ".specs", ".openapi"].map
    String.toList

def frameworkMarkers : List (Str × List (Str × Str)) :=
  [("package.json",
    [("@nestjs/core", "nestjs"), ("express", "express"),
     ("fastify", "fastify"), ("koa", "koa"), ("hono", "hono"),
     ("next", "nextjs")]),
   ("pyproject.toml",
    [("fastapi", "fastapi"), ("django", "django"), ("flask", "flask")]),
   ("requirements.txt",
    [("fastapi", "fastapi"), ("django", "django"), ("flask", "flask")]),
   ("pom.xml", [("spring-boot", "spring")]),
   ("build.gradle", [("spring-boot", "spring")]),
   ("build.gradle.kts", [("spring-boot", "spring")]),
   ("go.mod",
    [("gin-gonic/gin", "gin"), ("labstack/echo", "echo"),
     ("gofiber/fiber", "fiber")]),
   ("Gemfile", [("rails", "rails")]),
   ("Cargo.toml", [("axum", "axum"), ("actix-web", "actix")])
  ].map (fun e => (e.1.toList, e.2.map (fun m => (m.1.toList, m.2.toList))))

/-- Inner loop of _detect_framework: first marker substring found in
the (already lowercased) manifest content, in table order. -/
def findMarker (content : Str) : List (Str × Str) → Option Str
  | [] => none
  | (sub, fw) :: rest =>
    if isSubstr sub content then some fw else findMarker content rest

/-- Outer loop of _detect_framework over the remaining manifest table:
skip absent manifests, treat an OSError as non-matching, stop at the
first marker hit; an undecodable manifest raises. -/
def detectGo (fs : Fs) : List (Str × List (Str × Str)) → Except Unit Str
  | [] => .ok ("unknown".toList)
  | (manifest, markers) :: rest =>
    if fs.present manifest then
      match fs.read manifest with
      | .ok content =>
        match findMarker (lowerS content) markers with
        | some fw => .ok fw
        | none => detectGo fs rest
      | .osErr => detectGo fs rest
      | .decodeErr => .error ()
    else detectGo fs rest

/-- Translation of _detect_framework. -/
def detectFramework (fs : Fs) : Except Unit Str :=
  detectGo fs frameworkMarkers

-- ── Glob pattern tables ──────────────────────────────────────────────

def routePatternTable : List (Str × List Str) :=
  [("spring", ["**/*Controller.java", "**/*Controller.kt",
               "**/*Resource.java", "**/*Resource.kt"]),
   ("nestjs", ["**/*.controller.ts", "**/*.controller.js"]),
   ("express", ["**/routes/**/*.ts", "**/routes/**/*.js",
                "**/*.router.ts", "**/*.router.js"]),
   ("fastify", ["**/routes/**/*.ts", "**/routes/**/*.js",
                "**/*.route.ts", "**/*.route.js"]),
   ("koa", ["**/routes/**/*.ts", "**/routes/**/*.js", "**/*.router.ts"]),
   ("hono", ["**/routes/**/*.ts", "**/*.route.ts"]),
   ("nextjs", ["**/app/**/route.ts", "**/app/**/route.js",
               "**/pages/api/**/*.ts", "**/pages/api/**/*.js"]),
   ("fastapi", ["**/routers/**/*.py", "**/routes/**/*.py",
                "**/api/**/*.py", "**/endpoints/**/*.py"]),
   ("django", ["**/views.py", "**/urls.py", "**/api/**/*.py",
               "**/views/**/*.py"]),
   ("flask", ["**/routes.py", "**/views.py", "**/api/**/*.py"]),
   ("gin", ["**/handler*.go", "**/routes*.go", "**/api/**/*.go"]),
   ("echo", ["**/handler*.go", "**/routes*.go", "**/api/**/*.go"]),
   ("fiber", ["**/handler*.go", "**/routes*.go", "**/api/**/*.go"]),
   ("rails", ["**/controllers/**/*.rb", "**/routes.rb"]),
   ("axum", ["**/handlers/**/*.rs", "**/routes.rs", "**/api/**/*.rs"]),
   ("actix", ["**/handlers/**/*.rs", "**/routes.rs", "**/api/**/*.rs"])
  ].map (fun e => (e.1.toList, e.2.map String.toList))

def genericRoutePatterns : List Str :=
  ["**/*controller*.*", "**/*Controller*.*", "**/routes/**",
   "**/*router*.*", "**/*handler*.*", "**/api/**"].map String.toList

def schemaPatternTable : List (Str × List Str) :=
  [("spring", ["**/dto/**/*.java", "**/dto/**/*.kt", "**/entity/**/*.java",
               "**/entity/**/*.kt", "**/model/**/*.java", "**/model/**/*.kt"]),
   ("nestjs", ["**/*.dto.ts", "**/*.entity.ts", "**/*.schema.ts",
               "**/models/**/*.ts"]),
   ("express", ["**/*.dto.ts", "**/*.model.ts", "**/models/**/*.ts",
                "**/schemas/**/*.ts"]),
   ("fastapi", ["**/models/**/*.py", "**/schemas/**/*.py", "**/dto/**/*.py"]),
   ("django", ["**/models.py", "**/serializers.py", "**/models/**/*.py"]),
   ("flask", ["**/models.py", "**/schemas.py", "**/models/**/*.py"]),
   ("gin", ["**/models/**/*.go", "**/dto/**/*.go", "**/types/**/*.go"]),
   ("rails", ["**/models/**/*.rb", "**/serializers/**/*.rb"])
  ].map (fun e => (e.1.toList, e.2.map String.toList))

def genericSchemaPatterns : List Str :=
  ["**/*.dto.*", "**/*.entity.*", "**/*.schema.*", "**/models/**",
   "**/schemas/**", "**/entities/**", "**/dto/**"].map String.toList

def middlewarePatterns : List Str :=
  ["**/*auth*.*", "**/*middleware*.*", "**/*security*.*", "**/*guard*.*",
   "**/*interceptor*.*", "**/middleware/**"].map String.toList

def configPatterns : List Str :=
  ["**/application.yml", "**/application.yaml", "**/application.properties",
   "**/application-*.yml", ".env.example", ".env.sample",
   "**/config/server*.*", "**/config/app*.*"].map String.toList

/-- Python dict.get with a default of the empty list, over an
association table. -/
def lookupPatterns (table : List (Str × List Str)) (fw : Str) : List Str :=
  match table.find? (fun e => e.1 == fw) with
  | some e => e.2
  | none => []

-- ── _glob_files ──────────────────────────────────────────────────────

/-- Ordering used by Python sorted() on Path values: lexicographic on
the tuple of components, each compared as a string by code point. -/
def strLe : Str → Str → Bool
  | [], _ => true
  | _ :: _, [] => false
  | a :: as_, b :: bs => if a = b then strLe as_ bs else decide (a < b)

/-- Path components of a relative path. -/
def pathParts (p : Str) : List Str := p.splitOn '/'

def partsLe : List Str → List Str → Bool
  | [], _ => true
  | _ :: _, [] => false
  | a :: as_, b :: bs => if a = b then partsLe as_ bs else strLe a b

def pathLe (p q : Str) : Bool := partsLe (pathParts p) (pathParts q)

/-- Insertion sort (the sorted() applied to each pattern's matches). -/
def insertSorted (x : Str) : List Str → List Str
  | [] => [x]
  | y :: ys => if pathLe x y then x :: y :: ys else y :: insertSorted x ys

def sortPaths (l : List Str) : List Str := l.foldr insertSorted []

/-- Check of _glob_files against _SKIP_DIRS: some component of the
path relative to the root is an ignored directory name. -/
def hasSkipDir (p : Str) : Bool := (pathParts p).any (fun part => skipDirs.contains part)

/-- Inner loop of _glob_files over one pattern's sorted matches,
carrying the seen set and the results list; the Bool reports the early
return taken when the maximum is reached just after an append. -/
def globInner (fs : Fs) (maxFiles : Nat) :
    List Str → List Str → List Str → (List Str × List Str × Bool)
  | [], seen, results => (results, seen, false)
  | p :: ps, seen, results =>
    if fs.isFile p && !(seen.contains p) then
      if hasSkipDir p then globInner fs maxFiles ps seen results
      else
        let results2 := results ++ [p]
        if maxFiles ≤ results2.length then (results2, p :: seen, true)
        else globInner fs maxFiles ps (p :: seen) results2
    else globInner fs maxFiles ps seen results

/-- Outer loop of _glob_files over the pattern list. -/
def globOuter (fs : Fs) (maxFiles : Nat) :
    List Str → List Str → List Str → List Str
  | [], _, results => results
  | pat :: pats, seen, results =>
    match globInner fs maxFiles (sortPaths (fs.glob pat)) seen results with
    | (results2, seen2, done) =>
      if done then results2 else globOuter fs maxFiles pats seen2 results2

/-- Translation of _glob_files (default maximum 30). -/
def globFiles (fs : Fs) (patterns : List Str) (maxFiles : Nat := 30) : List Str :=
  globOuter fs maxFiles patterns [] []

-- ── _read_files and the heuristic counters ───────────────────────────

/-- Translation of _read_files: read each path, truncate to the cap, skip
OSError failures; an undecodable file raises through the loop. -/
def readFiles (fs : Fs) (paths : List Str) (perFileCap : Nat := 4000) :
    Except Unit (List (Str × Str)) :=
  match paths with
  | [] => .ok []
  | p :: rest =>
    match fs.read p with
    | .ok content =>
      (readFiles fs rest perFileCap).map (fun r => (p, content.take perFileCap) :: r)
    | .osErr => readFiles fs rest perFileCap
    | .decodeErr => .error ()

/-- Translation of _count_endpoints: sum the match counts of the
combined endpoint regex over the route file contents. -/
def countEndpoints (re : ReCounts) (routeFiles : List (Str × Str)) : Nat :=
  routeFiles.foldl (fun count f => count + re.endpointMatches f.2) 0

/-- Translation of _count_schemas. -/
def countSchemas (re : ReCounts) (schemaFiles : List (Str × Str)) : Nat :=
  schemaFiles.foldl (fun count f => count + re.schemaMatches f.2) 0

-- ── _read_manifests and gather_api_context ───────────────────────────

def manifestNames : List Str :=
  ["package.json", "pyproject.toml", "Cargo.toml", "go.mod", "Gemfile",
   "pom.xml", "build.gradle", "build.gradle.kts"].map String.toList

/-- One excerpt block of _read_manifests: a header line with the
manifest name and the content truncated to 3000 characters inside a
code fence. -/
def manifestBlock (nm content : Str) : Str :=
  "### ".toList ++ nm ++ "\n```\n".toList ++ content.take 3000 ++ "\n```".toList

/-- Loop of _read_manifests.  Its read has no exception handler, so any
failing read of an existing manifest propagates. -/
def readManifestsGo (fs : Fs) : List Str → Except Unit (List Str)
  | [] => .ok []
  | nm :: rest =>
    if fs.present nm then
      match fs.read nm with
      | .ok content =>
        (readManifestsGo fs rest).map (fun parts => manifestBlock nm content :: parts)
      | _ => .error ()
    else readManifestsGo fs rest

/-- Translation of _read_manifests. -/
def readManifests (fs : Fs) : Except Unit Str :=
  (readManifestsGo fs manifestNames).map (fun parts => (['\n'] : Str).intercalate parts)

/-- Structured API context gathered from the codebase scan. -/
structure ApiContext where
  project_name : Str := []
  project_structure : Str := []
  package_info : Str := []
  route_files : List (Str × Str) := []
  schema_files : List (Str × Str) := []
  middleware_files : List (Str × Str) := []
  config_files : List (Str × Str) := []
  extra_files : List (Str × Str) := []
  endpoint_count : Nat := 0
  schema_count : Nat := 0
  has_api_code : Bool := false
deriving DecidableEq

/-- Step 8 of gather_api_context: user-specified include files, read
with a 4000-character cap, OSError skipped, no ignored-directory
check; an undecodable include raises. -/
def readIncludes (fs : Fs) : List Str → Except Unit (List (Str × Str))
  | [] => .ok []
  | p :: rest =>
    if fs.present p && fs.isFile p then
      match fs.read p with
      | .ok content =>
        (readIncludes fs rest).map (fun r => (p, content.take 4000) :: r)
      | .osErr => readIncludes fs rest
      | .decodeErr => .error ()
    else readIncludes fs rest

/-- Translation of gather_api_context: tree summary, manifest excerpts,
framework detection, the four globbed-and-read categories with their
maxima (30 routes, 30 schemas, 15 middleware, 10 config), the include
files, and the heuristic statistics. -/
def gatherApiContext (re : ReCounts) (fs : Fs) (includePaths : List Str) :
    Except Unit ApiContext :=
  match readManifests fs with
  | .error e => .error e
  | .ok packageInfo =>
  match detectFramework fs with
  | .error e => .error e
  | .ok framework =>
  match readFiles fs (globFiles fs (lookupPatterns routePatternTable framework
      ++ genericRoutePatterns) 30) 4000 with
  | .error e => .error e
  | .ok routeFiles =>
  match readFiles fs (globFiles fs (lookupPatterns schemaPatternTable framework
      ++ genericSchemaPatterns) 30) 4000 with
  | .error e => .error e
  | .ok schemaFiles =>
  match readFiles fs (globFiles fs middlewarePatterns 15) 4000 with
  | .error e => .error e
  | .ok middlewareFiles =>
  match readFiles fs (globFiles fs configPatterns 10) 4000 with
  | .error e => .error e
  | .ok configFiles =>
  match readIncludes fs includePaths with
  | .error e => .error e
  | .ok extraFiles =>
    let epCount := countEndpoints re routeFiles
    let scCount := countSchemas re schemaFiles
    .ok { project_name := fs.name
          project_structure := fs.tree
          package_info := packageInfo
          route_files := routeFiles
          schema_files := schemaFiles
          middleware_files := middlewareFiles
          config_files := configFiles
          extra_files := extraFiles
          endpoint_count := epCount
          schema_count := scCount
          has_api_code := decide (0 < epCount) || decide (0 < routeFiles.length) }

-- ── Claim-side definitions ───────────────────────────────────────────
-- Declarative forms stated by the specification, to be compared with
-- the translated loops above, plus well-formedness predicates and the
-- concrete fixtures used by witnesses and counterexamples.

/-- The spec's Content Reader contract as one declarative pass: the
pairs for exactly the paths whose read succeeds, in order. -/
def readFilesSpec (fs : Fs) (paths : List Str) (perFileCap : Nat) :
    List (Str × Str) :=
  paths.filterMap fun p =>
    match fs.read p with
    | .ok content => some (p, content.take perFileCap)
    | _ => none

/-- A filesystem identical to fs except that one path reports as
absent. -/
def hideManifest (fs : Fs) (m : Str) : Fs :=
  { fs with present := fun x => if x == m then false else fs.present x }

/-- The spec's Framework Detector contract for one manifest-table
entry: none when the entry is skipped (absent manifest or OSError),
otherwise the outcome that ends the scan. -/
def manifestResult (fs : Fs) (e : Str × List (Str × Str)) :
    Option (Except Unit Str) :=
  if fs.present e.1 then
    match fs.read e.1 with
    | .ok content => (findMarker (lowerS content) e.2).map Except.ok
    | .osErr => none
    | .decodeErr => some (.error ())
  else none

/-- A file the selector keeps: a regular file with no ignored-directory
component. -/
def goodPath (fs : Fs) (p : Str) : Bool := fs.isFile p && !(hasSkipDir p)

/-- Keep the first occurrence of each element, given already-seen
elements. -/
def dedupFirstAux (seen : List Str) : List Str → List Str
  | [] => []
  | x :: xs =>
    if seen.contains x then dedupFirstAux seen xs
    else x :: dedupFirstAux (x :: seen) xs

def dedupFirst (l : List Str) : List Str := dedupFirstAux [] l

/-- The spec's File Selector contract as one declarative pipeline:
pattern order, lexical order within a pattern, filtered, first
occurrences only, cut at the maximum. -/
def globFilesSpec (fs : Fs) (patterns : List Str) (maxFiles : Nat) : List Str :=
  (dedupFirst (((patterns.map fun pat => sortPaths (fs.glob pat)).flatten).filter
    (goodPath fs))).take maxFiles

/-- The dot-m-d suffix the delimiter regex guarantees for captured
filenames. -/
def mdSuffix (f : Str) : Bool := (".md".toList).isSuffixOf f

/-- Characters allowed in the base of a well-formed endpoint-doc
filename (the slug alphabet). -/
def isNameChar (c : Char) : Bool := c.isLower || c.isDigit || c = '-'

/-- Well-formed filename: a non-empty slug-alphabet base followed by
the dot-m-d extension. -/
def wfName (f : Str) : Bool :=
  mdSuffix f && decide (4 ≤ f.length) && (f.take (f.length - 3)).all isNameChar

/-- Occurrence of three consecutive hyphens. -/
def hasDashes : Str → Bool
  | [] => false
  | c :: rest => dashes.isPrefixOf (c :: rest) || hasDashes rest

/-- Well-formed chunk content: no run of three hyphens (so it cannot
open a delimiter) and at least one non-whitespace character. -/
def wfContent (c : Str) : Bool := !(hasDashes c) && c.any (fun ch => !(pyWs ch))

def wfPair (p : Str × Str) : Bool := wfName p.1 && wfContent p.2

/-- One document of the endpoint-doc response format: the delimiter
line naming the file, then the content on following lines. -/
def renderPair (f c : Str) : Str :=
  "--- FILE: ".toList ++ f ++ " ---\n".toList ++ c ++ ['\n']

/-- A whole well-formed endpoint-doc response. -/
def renderDoc (ps : List (Str × Str)) : Str :=
  (ps.map fun p => renderPair p.1 p.2).flatten

/-- A trailing delimiter with no content after it. -/
def danglingDelim (f : Str) : Str := "--- FILE: ".toList ++ f ++ " ---".toList

/-- Trivial regex-count oracle used by concrete fixtures. -/
def reZero : ReCounts := ⟨fun _ => 0, fun _ => 0⟩

/-- Fixture for the Content Reader: one undecodable file next to one
readable file. -/
def fsDecode : Fs where
  present := fun _ => false
  isFile := fun _ => false
  glob := fun _ => []
  read := fun p =>
    if p == "good.py".toList then .ok ("hi".toList)
    else if p == "bad.py".toList then .decodeErr
    else .osErr
  tree := []
  name := "p".toList

/-- Fixture for gather_api_context: an empty project except for one
include file living under node_modules. -/
def fsInclude : Fs where
  present := fun p => p == "node_modules/x.js".toList
  isFile := fun p => p == "node_modules/x.js".toList
  glob := fun _ => []
  read := fun p => if p == "node_modules/x.js".toList then .ok ("x".toList) else .osErr
  tree := []
  name := "proj".toList

/-- Fixture for the Framework Detector: a single manifest that exists
but cannot be decoded. -/
def fsManifestDecode : Fs where
  present := fun p => p == "package.json".toList
  isFile := fun p => p == "package.json".toList
  glob := fun _ => []
  read := fun _ => .decodeErr
  tree := []
  name := "proj".toList

/-- Fixture for the File Selector: two patterns with overlapping
matches, an ignored directory and a non-file. -/
def fsGlob : Fs where
  present := fun _ => true
  isFile := fun p => !(p == "dir".toList)
  glob := fun pat =>
    if pat == "one".toList then
      ["b.ts".toList, "a.ts".toList, "node_modules/c.ts".toList, "dir".toList]
    else if pat == "two".toList then ["a.ts".toList, "d.ts".toList]
    else []
  read := fun _ => .ok ("r.get".toList)
  tree := []
  name := "proj".toList

/-- The selector loop over one flattened stream of candidate paths,
used to relate the two-level loop of _glob_files to the declarative
pipeline. -/
def globFlat (fs : Fs) (maxFiles : Nat) : List Str → List Str → List Str → List Str
  | [], _, results => results
  | p :: ps, seen, results =>
    if fs.isFile p && !(seen.contains p) then
      if hasSkipDir p then globFlat fs maxFiles ps seen results
      else if maxFiles ≤ (results ++ [p]).length then results ++ [p]
      else globFlat fs maxFiles ps (p :: seen) (results ++ [p])
    else globFlat fs maxFiles ps seen results

/-- Fixture with one express manifest and one route glob hit next to an
ignored-directory hit. -/
def fsRoutes : Fs where
  present := fun p => p == ("package.json").toList
  isFile := fun _ => true
  glob := fun pat =>
    if pat == ("**/api/**").toList then
      [("api/users.py").toList, ("node_modules/x.py").toList]
    else []
  read := fun p =>
    if p == ("package.json").toList then .ok (("express").toList)
    else .ok (("r.get(x)").toList)
  tree := []
  name := ("proj").toList

/-- The context gather_api_context produces on the fsRoutes fixture. -/
def ctxRoutes : ApiContext where
  project_name := ("proj").toList
  project_structure := []
  package_info := ("### package.json\n```\nexpress\n```").toList
  route_files := [(("api/users.py").toList, ("r.get(x)").toList)]
  schema_files := []
  middleware_files := []
  config_files := []
  extra_files := []
  endpoint_count := 0
  schema_count := 0
  has_api_code := true

-- ── Helper lemmas: stripping ─────────────────────────────────────────

theorem dropWhile_head_false {p : Char → Bool} {l t : Str} {a : Char}
    (h : l.dropWhile p = a :: t) : p a = false := by
  induction l with
  | nil => simp at h
  | cons b l ih =>
    rw [List.dropWhile_cons] at h
    by_cases hb : p b = true
    · exact ih (by simpa [hb] using h)
    · obtain ⟨rfl, -⟩ : b = a ∧ l = t := by
        simpa [hb] using h
      simpa using hb

theorem dropWhile_idem (p : Char → Bool) (l : Str) :
    (l.dropWhile p).dropWhile p = l.dropWhile p := by
  cases h : l.dropWhile p with
  | nil => simp
  | cons a t => rw [List.dropWhile_cons, dropWhile_head_false h]; simp

theorem pyStripR_reverse_char (l : Str) :
    pyStripR l = (l.reverse.dropWhile pyWs).reverse := rfl

theorem pyStripR_idem (l : Str) : pyStripR (pyStripR l) = pyStripR l := by
  simp [pyStripR, dropWhile_idem]

theorem pyStripR_front (l : Str) : pyStripR l <+: l := by
  have h : l.reverse.dropWhile pyWs <:+ l.reverse := List.dropWhile_suffix pyWs
  have := List.reverse_prefix.mpr (by simpa using h)
  simpa [pyStripR] using this

theorem pyStripL_cons_false {a : Char} (h : pyWs a = false) (l : Str) :
    pyStripL (a :: l) = a :: l := by
  simp [pyStripL, List.dropWhile_cons, h]

theorem pyStrip_idem (l : Str) : pyStrip (pyStrip l) = pyStrip l := by
  unfold pyStrip
  have key : pyStripL (pyStripR (pyStripL l)) = pyStripR (pyStripL l) := by
    cases hz : pyStripL l with
    | nil => simp [pyStripR, pyStripL]
    | cons a t =>
      have ha : pyWs a = false := dropWhile_head_false hz
      cases hr : pyStripR (a :: t) with
      | nil => simp [pyStripL]
      | cons b u =>
        have hpre : b :: u <+: a :: t := hr ▸ pyStripR_front (a :: t)
        obtain ⟨w, hw⟩ := hpre
        obtain ⟨rfl, -⟩ : b = a ∧ u ++ w = t := by
          simpa using hw
        exact pyStripL_cons_false ha _
  rw [key, pyStripR_idem]

theorem pyStripL_all_false {l : Str} (h : ∀ c ∈ l, pyWs c = false) :
    pyStripL l = l := by
  cases l with
  | nil => rfl
  | cons a t => exact pyStripL_cons_false (h a (by simp)) t

theorem pyStrip_all_false {l : Str} (h : ∀ c ∈ l, pyWs c = false) :
    pyStrip l = l := by
  unfold pyStrip
  rw [pyStripL_all_false h]
  unfold pyStripR
  rw [List.dropWhile_eq_self_iff.mpr ?_, List.reverse_reverse]
  intro hl
  simp only [List.get_eq_getElem, List.getElem_reverse]
  exact (h _ (List.getElem_mem _)).symm ▸ by simp

theorem pyStripL_cons_true {a : Char} (h : pyWs a = true) (l : Str) :
    pyStripL (a :: l) = pyStripL l := by
  simp [pyStripL, List.dropWhile_cons, h]

theorem pyStripR_concat_true {a : Char} (h : pyWs a = true) (l : Str) :
    pyStripR (l ++ [a]) = pyStripR l := by
  simp [pyStripR, List.dropWhile_cons, h]

theorem pyStrip_region (c : Str) :
    pyStrip ('\n' :: (c ++ ['\n'])) = pyStrip c := by
  unfold pyStrip
  rw [pyStripL_cons_true (by decide)]
  have happ : pyStripL (c ++ ['\n']) = pyStripL c ++ ['\n'] ∨
      (pyStripL c = [] ∧ pyStripL (c ++ ['\n']) = []) := by
    unfold pyStripL
    rw [List.dropWhile_append]
    by_cases hc : (c.dropWhile pyWs).isEmpty = true
    · right
      refine ⟨by simpa using hc, ?_⟩
      simp [hc, List.dropWhile_cons, (by decide : pyWs '\n' = true)]
    · left; simp [hc]
  rcases happ with h | ⟨h1, h2⟩
  · rw [h, pyStripR_concat_true (by decide)]
  · rw [h1, h2]

theorem pyStripL_ne_nil {l : Str} (h : l.any (fun ch => !(pyWs ch)) = true) :
    pyStripL l ≠ [] := by
  unfold pyStripL
  intro hcon
  rw [List.dropWhile_eq_nil_iff] at hcon
  obtain ⟨x, hx, hxw⟩ := by simpa using h
  exact absurd (hcon x hx) (by simp [hxw])

theorem pyStripR_ne_nil {l : Str} (h : l.any (fun ch => !(pyWs ch)) = true) :
    pyStripR l ≠ [] := by
  unfold pyStripR
  intro hcon
  have : l.reverse.dropWhile pyWs = [] := by
    simpa using congrArg List.reverse hcon
  rw [List.dropWhile_eq_nil_iff] at this
  obtain ⟨x, hx, hxw⟩ := by simpa using h
  exact absurd (this x (by simpa using hx)) (by simp [hxw])

theorem pyStrip_ne_nil {l : Str} (h : l.any (fun ch => !(pyWs ch)) = true) :
    pyStrip l ≠ [] := by
  unfold pyStrip
  apply pyStripR_ne_nil
  have : ∃ x ∈ l, pyWs x = false := by simpa using h
  obtain ⟨x, hx, hxw⟩ := this
  have hx2 : x ∈ pyStripL l := by
    have hsplit := List.takeWhile_append_dropWhile (p := pyWs) (l := l)
    rcases List.mem_append.mp (hsplit ▸ hx) with h1 | h2
    · exact absurd (List.mem_takeWhile_imp h1) (by simp [hxw])
    · exact h2
  simp only [List.any_eq_true]
  exact ⟨x, hx2, by simp [hxw]⟩

-- ── Helper lemmas: characters and the slug shape ─────────────────────

theorem char_ofNat_toNat {m : Nat} (h : m < 55296) :
    (Char.ofNat m).val.toNat = m := by
  have hv : m.isValidChar := Or.inl h
  simp [Char.ofNat, hv, Char.ofNatAux, UInt32.toNat, BitVec.toNat_ofNatLt]

theorem alpha_toLower_isLower {c : Char} (h : c.isAlpha = true) :
    (c.toLower).isLower = true := by
  simp only [Char.isAlpha, Char.isUpper, Char.isLower, Char.toLower, Char.toNat,
    Bool.or_eq_true, Bool.and_eq_true, decide_eq_true_eq] at *
  rcases h with ⟨h1, h2⟩ | ⟨h1, h2⟩
  · have h1n : 65 ≤ c.val.toNat := by exact_mod_cast h1
    have h2n : c.val.toNat ≤ 90 := by exact_mod_cast h2
    rw [if_pos ⟨h1n, h2n⟩]
    have hval : (Char.ofNat (c.val.toNat + 32)).val.toNat = c.val.toNat + 32 :=
      char_ofNat_toNat (by omega)
    constructor
    · have : 97 ≤ (Char.ofNat (c.val.toNat + 32)).val.toNat := by omega
      exact_mod_cast this
    · have : (Char.ofNat (c.val.toNat + 32)).val.toNat ≤ 122 := by omega
      exact_mod_cast this
  · have h1n : 97 ≤ c.val.toNat := by exact_mod_cast h1
    have h2n : c.val.toNat ≤ 122 := by exact_mod_cast h2
    rw [if_neg (by omega)]
    exact ⟨h1, h2⟩

theorem toLower_eq_self_of_not_alpha {c : Char} (h : c.isAlpha = false) :
    c.toLower = c := by
  simp only [Char.isAlpha, Char.isUpper, Char.isLower, Char.toLower, Char.toNat,
    Bool.or_eq_false_iff, Bool.and_eq_false_iff, decide_eq_false_iff_not,
    not_le] at *
  rcases h.1 with h1 | h1
  · rw [if_neg ?_]
    intro hcon
    have : 65 ≤ c.val.toNat := hcon.1
    have h1n : ¬ (65 ≤ c.val.toNat) := by exact_mod_cast h1
    omega
  · rw [if_neg ?_]
    intro hcon
    have : c.val.toNat ≤ 90 := hcon.2
    have h1n : ¬ (c.val.toNat ≤ 90) := by exact_mod_cast h1
    omega

theorem slugKeep_toLower_tail {c : Char} (h : isSlugKeep c = true) :
    isSlugTail c.toLower = true := by
  simp only [isSlugKeep, Bool.or_eq_true, decide_eq_true_eq] at h
  rcases h with (h | h) | h
  · simp [isSlugTail, alpha_toLower_isLower h]
  · have hd : c.isAlpha = false := by
      simp only [Char.isDigit, Bool.and_eq_true, decide_eq_true_eq] at h
      simp only [Char.isAlpha, Char.isUpper, Char.isLower, Bool.or_eq_false_iff,
        Bool.and_eq_false_iff, decide_eq_false_iff_not, not_le]
      have h1 : c.val.toNat ≤ 57 := by exact_mod_cast h.2
      constructor
      · left
        have : ¬ (65 ≤ c.val.toNat) := by omega
        exact_mod_cast this
      · left
        have : ¬ (97 ≤ c.val.toNat) := by omega
        exact_mod_cast this
    rw [toLower_eq_self_of_not_alpha hd]
    simp [isSlugTail, h]
  · subst h
    decide

theorem takeWhile_eq_self_of_all {p : Char → Bool} {l : Str}
    (h : ∀ c ∈ l, p c = true) : l.takeWhile p = l := by
  induction l with
  | nil => rfl
  | cons a t ih =>
    rw [List.takeWhile_cons, if_pos (h a (by simp))]
    rw [ih (fun c hc => h c (by simp [hc]))]

/-- Main shape lemma for the slug: a non-empty all-lowercase prefix
followed by a hyphen and tail characters matches the regex. -/
theorem matchesSlugShape_of_parts {a b : Str} (hne : a ≠ [])
    (ha : ∀ c ∈ a, c.isLower = true) (hb : ∀ c ∈ b, isSlugTail c = true) :
    matchesSlugShape (a ++ '-' :: b) = true := by
  unfold matchesSlugShape
  have htake : (a ++ '-' :: b).takeWhile Char.isLower = a := by
    rw [List.takeWhile_append]
    rw [takeWhile_eq_self_of_all ha]
    simp [List.takeWhile_cons, (by decide : Char.isLower '-' = false)]
  have hdrop : (a ++ '-' :: b).drop a.length = '-' :: b :=
    List.drop_left a ('-' :: b)
  rw [htake, hdrop]
  cases a with
  | nil => exact absurd rfl hne
  | cons x xs => exact List.all_eq_true.mpr hb

-- ── C1: the Content Reader's error handling ──────────────────────────

theorem detectGo_hide {fs : Fs} {m : Str} (hm : fs.read m = .osErr)
    (l : List (Str × List (Str × Str))) :
    detectGo (hideManifest fs m) l = detectGo fs l := by
  induction l with
  | nil => rfl
  | cons e rest ih =>
    obtain ⟨mf, markers⟩ := e
    simp only [detectGo]
    by_cases heq : mf = m
    · rw [heq]
      have hp : (hideManifest fs m).present m = false := by
        show (if (m == m) = true then false else fs.present m) = false
        simp
      rw [hp]
      simp only [Bool.false_eq_true, if_false]
      by_cases hpf : fs.present m = true
      · rw [if_pos hpf, hm]
        exact ih
      · rw [if_neg hpf]
        exact ih
    · have hp : (hideManifest fs m).present mf = fs.present mf := by
        show (if (mf == m) = true then false else fs.present mf) = fs.present mf
        simp [heq]
      rw [hp]
      by_cases hpf : fs.present mf = true
      · rw [if_pos hpf, if_pos hpf]
        have hrd : (hideManifest fs m).read mf = fs.read mf := rfl
        rw [hrd]
        cases hr : fs.read mf with
        | ok content =>
          cases hfm : findMarker (lowerS content) markers <;> simp [hfm, ih]
        | osErr => exact ih
        | decodeErr => rfl
      · rw [if_neg hpf, if_neg hpf]
        exact ih

/-- C1 (corrected): the Content Reader skips files whose read fails
with an OSError (permission denied, file removed mid-scan) and returns
the pairs for the paths that did read; likewise hiding a manifest whose
read fails with an OSError does not change the detected framework.  An
encoding failure, however, is a ValueError and escapes the OSError
handler (see the counterexample). -/
theorem read_files_skips_os_errors (fs : Fs) (paths : List Str) (cap : Nat)
    (m : Str) (hnd : ∀ p ∈ paths, fs.read p ≠ .decodeErr)
    (hm : fs.read m = .osErr) :
    readFiles fs paths cap = .ok (readFilesSpec fs paths cap) ∧
    detectFramework (hideManifest fs m) = detectFramework fs := by
  constructor
  · induction paths with
    | nil => rfl
    | cons p rest ih =>
      have hrest := ih (fun q hq => hnd q (by simp [hq]))
      cases hr : fs.read p with
      | ok content =>
        simp only [readFiles, readFilesSpec, List.filterMap_cons, hr, hrest]
        rfl
      | osErr =>
        simp only [readFiles, readFilesSpec, List.filterMap_cons, hr, hrest]
      | decodeErr => exact absurd hr (hnd p (by simp))
  · exact detectGo_hide hm frameworkMarkers

/-- Witness for C1 at a concrete filesystem. -/
theorem read_files_skips_os_errors_witness :
    readFiles fsDecode [("good.py").toList] 4000 =
      .ok (readFilesSpec fsDecode [("good.py").toList] 4000) ∧
    detectFramework (hideManifest fsDecode ("gone.py").toList) =
      detectFramework fsDecode :=
  read_files_skips_os_errors fsDecode [("good.py").toList] 4000
    (("gone.py").toList) (by decide) (by decide)

/-- Counterexample for C1 as stated: a file whose read fails with an
encoding error is not skipped; the whole batch raises instead of
returning the readable files' pairs. -/
theorem read_files_decode_error_cex :
    readFiles fsDecode [("bad.py").toList, ("good.py").toList] 4000 ≠
      .ok (readFilesSpec fsDecode [("bad.py").toList, ("good.py").toList] 4000) := by
  intro h
  have h1 : readFiles fsDecode [("bad.py").toList, ("good.py").toList] 4000 =
      .error () := by rfl
  rw [h1] at h
  exact Except.noConfusion h

-- ── C2: the slug function ────────────────────────────────────────────

/-- C2 (corrected): when the method is a non-empty string of ASCII
letters, the slug matches the anchored shape of lowercase letters, a
hyphen, then lowercase letters, digits and hyphens, and the two quoted
examples hold.  An empty or non-alphabetic method falsifies the
original for-every-strings claim (see the counterexample). -/
theorem endpoint_slug_shape (method path : Str) (hne : method ≠ [])
    (halpha : ∀ c ∈ method, c.isAlpha = true) :
    matchesSlugShape (endpointSlug method path) = true ∧
    endpointSlug ("GET").toList ("/api/pulse/forms/{formId}").toList =
      ("get-api-pulse-forms-formid").toList ∧
    endpointSlug ("GET").toList ("/").toList = ("get-").toList := by
  refine ⟨?_, by decide, by decide⟩
  simp only [endpointSlug]
  apply matchesSlugShape_of_parts
  · simp [lowerS, hne]
  · intro c hc
    obtain ⟨x, hx, rfl⟩ := List.mem_map.mp hc
    exact alpha_toLower_isLower (halpha x hx)
  · intro c hc
    obtain ⟨x, hx, rfl⟩ := List.mem_map.mp hc
    exact slugKeep_toLower_tail (List.mem_filter.mp hx).2

/-- Witness for C2 at a concrete method and path. -/
theorem endpoint_slug_shape_witness :
    matchesSlugShape (endpointSlug ("GET").toList ("/api/users").toList) = true :=
  (endpoint_slug_shape ("GET").toList ("/api/users").toList (by decide)
    (by decide)).1

/-- Counterexample for C2 as stated: with the empty method the result
is a bare hyphen prefix, which the claimed regex rejects. -/
theorem endpoint_slug_shape_cex :
    ¬ (matchesSlugShape (endpointSlug [] ("/api/users").toList) = true) := by
  decide

-- ── C3: the fence stripper ───────────────────────────────────────────

theorem pyStripR_concat_false {a : Char} (h : pyWs a = false) (l : Str) :
    pyStripR (l ++ [a]) = l ++ [a] := by
  simp [pyStripR, List.dropWhile_cons, h]

theorem pyStrip_sandwich {a b : Char} (ha : pyWs a = false) (hb : pyWs b = false)
    (l : Str) : pyStrip (a :: (l ++ [b])) = a :: (l ++ [b]) := by
  unfold pyStrip
  rw [pyStripL_cons_false ha]
  exact pyStripR_concat_false hb (a :: l)

theorem backtick_suffix (x : Str) :
    ("```".toList).isSuffixOf (x ++ ('\n' :: ("```").toList)) = true := by
  show ("```".toList).reverse.isPrefixOf (x ++ ('\n' :: ("```").toList)).reverse = true
  rw [List.reverse_append]
  rfl

theorem take_sandwich (x : Str) :
    (x ++ ('\n' :: ("```").toList)).take ((x ++ ('\n' :: ("```").toList)).length - 3) =
      x ++ ['\n'] := by
  rw [List.length_append, (by rfl : ('\n' :: ("```").toList).length = 4)]
  rw [(by omega : x.length + 4 - 3 = x.length + 1)]
  rw [List.take_append_eq_append_take, List.take_of_length_le (by omega)]
  rw [(by omega : x.length + 1 - x.length = 1)]
  rfl

/-- After removing a leading fence, the remaining text of a fenced body
carries a trailing fence, and removing it and stripping yields the
stripped body. -/
theorem fence_tail (body : Str) :
    ("```".toList).isSuffixOf (pyStrip ('\n' :: (body ++ ('\n' :: ("```").toList)))) = true ∧
    pyStrip ((pyStrip ('\n' :: (body ++ ('\n' :: ("```").toList)))).take
      ((pyStrip ('\n' :: (body ++ ('\n' :: ("```").toList)))).length - 3)) = pyStrip body := by
  have hmain : pyStrip ('\n' :: (body ++ ('\n' :: ("```").toList))) =
      pyStripL body ++ ('\n' :: ("```").toList) ∨
      (pyStripL body = [] ∧
        pyStrip ('\n' :: (body ++ ('\n' :: ("```").toList))) = ("```").toList) := by
    unfold pyStrip
    rw [(by rfl : pyStripL ('\n' :: (body ++ ('\n' :: ("```").toList))) =
      pyStripL (body ++ ('\n' :: ("```").toList)))]
    by_cases hb : pyStripL body = []
    · right
      refine ⟨hb, ?_⟩
      have h1 : pyStripL (body ++ ('\n' :: ("```").toList)) = ("```").toList := by
        unfold pyStripL at *
        rw [List.dropWhile_append, if_pos (by simp [hb])]
        rfl
      rw [h1]
      rfl
    · left
      have h1 : pyStripL (body ++ ('\n' :: ("```").toList)) =
          pyStripL body ++ ('\n' :: ("```").toList) := by
        unfold pyStripL at *
        rw [List.dropWhile_append, if_neg (by simp [hb])]
      rw [h1]
      obtain ⟨c, x', hx⟩ : ∃ c x', pyStripL body = c :: x' := by
        cases hxx : pyStripL body with
        | nil => exact absurd hxx hb
        | cons c x' => exact ⟨c, x', rfl⟩
      rw [hx]
      have hsh : c :: x' ++ '\n' :: ("```").toList =
          (c :: (x' ++ ['\n', '`', '`'])) ++ ['`'] := by simp
      rw [hsh]
      exact pyStripR_concat_false (by decide) _
  rcases hmain with h | ⟨hb, h⟩
  · rw [h]
    refine ⟨backtick_suffix _, ?_⟩
    rw [take_sandwich]
    cases hxx : pyStripL body with
    | nil =>
      have hbody : pyStrip body = [] := by
        unfold pyStrip
        rw [hxx]
        rfl
      rw [hbody]
      decide
    | cons c x' =>
      have hc : pyWs c = false := dropWhile_head_false hxx
      unfold pyStrip
      rw [List.cons_append, pyStripL_cons_false hc, hxx]
      exact pyStripR_concat_true (by decide) (c :: x')
  · rw [h]
    refine ⟨by decide, ?_⟩
    show pyStrip [] = pyStrip body
    unfold pyStrip
    rw [hb]
    rfl

/-- C3 (corrected): the stripper first trims surrounding whitespace
unconditionally; on trimmed text with no leading or trailing fence it
is the identity, and it removes exactly one leading and one trailing
fence of each recognized style.  On unfenced text with surrounding
whitespace it returns the trimmed text, not the input (see the
counterexample). -/
theorem strip_yaml_fences_spec :
    (∀ s : Str, ("```".toList).isPrefixOf (pyStrip s) = false →
      ("```".toList).isSuffixOf (pyStrip s) = false →
      stripYamlFences s = pyStrip s) ∧
    (∀ body : Str,
      stripYamlFences (("```yaml\n").toList ++ body ++ ("\n```").toList) = pyStrip body) ∧
    (∀ body : Str,
      stripYamlFences (("```yml\n").toList ++ body ++ ("\n```").toList) = pyStrip body) ∧
    (∀ body : Str,
      stripYamlFences (("```\n").toList ++ body ++ ("\n```").toList) = pyStrip body) := by
  have hpre3 : ∀ s : Str, ("```".toList).isPrefixOf (pyStrip s) = false →
      ∀ longer : Str, ("```".toList) <+: longer →
      longer.isPrefixOf (pyStrip s) = false := by
    intro s h1 longer hlong
    cases hc : longer.isPrefixOf (pyStrip s) with
    | false => rfl
    | true =>
      have : ("```".toList) <+: pyStrip s :=
        hlong.trans (List.isPrefixOf_iff_prefix.mp hc)
      rw [List.isPrefixOf_iff_prefix.mpr this] at h1
      exact absurd h1 (by simp)
  refine ⟨?_, ?_, ?_, ?_⟩
  · intro s h1 h2
    simp only [stripYamlFences]
    rw [hpre3 s h1 _ (by decide), hpre3 s h1 _ (by decide), h1]
    simp only [Bool.false_eq_true, if_false]
    rw [h2]
    simp
  · intro body
    simp only [stripYamlFences]
    have hA : pyStrip (("```yaml\n").toList ++ body ++ ("\n```").toList) =
        ("```yaml\n").toList ++ body ++ ("\n```").toList := by
      have := pyStrip_sandwich (a := '`') (b := '`') (by decide) (by decide)
        ('`' :: ('`' :: ('y' :: ('a' :: ('m' :: ('l' :: ('\n' ::
          (body ++ ('\n' :: ('`' :: ('`' :: [])))))))))))
      simpa [List.append_assoc] using this
    rw [hA]
    rw [(by rfl : (("```yaml".toList)).isPrefixOf
      (("```yaml\n").toList ++ body ++ ("\n```").toList) = true)]
    simp only [if_true]
    rw [(by rfl : (("```yaml\n").toList ++ body ++ ("\n```").toList).drop 7 =
      '\n' :: (body ++ ('\n' :: ("```").toList)))]
    rw [(fence_tail body).1]
    simp only [if_true]
    exact (fence_tail body).2
  · intro body
    simp only [stripYamlFences]
    have hA : pyStrip (("```yml\n").toList ++ body ++ ("\n```").toList) =
        ("```yml\n").toList ++ body ++ ("\n```").toList := by
      have := pyStrip_sandwich (a := '`') (b := '`') (by decide) (by decide)
        ('`' :: ('`' :: ('y' :: ('m' :: ('l' :: ('\n' ::
          (body ++ ('\n' :: ('`' :: ('`' :: []))))))))))
      simpa [List.append_assoc] using this
    rw [hA]
    rw [(by rfl : (("```yaml".toList)).isPrefixOf
      (("```yml\n").toList ++ body ++ ("\n```").toList) = false)]
    rw [(by rfl : (("```yml".toList)).isPrefixOf
      (("```yml\n").toList ++ body ++ ("\n```").toList) = true)]
    simp only [Bool.false_eq_true, if_false, if_true]
    rw [(by rfl : (("```yml\n").toList ++ body ++ ("\n```").toList).drop 6 =
      '\n' :: (body ++ ('\n' :: ("```").toList)))]
    rw [(fence_tail body).1]
    simp only [if_true]
    exact (fence_tail body).2
  · intro body
    simp only [stripYamlFences]
    have hA : pyStrip (("```\n").toList ++ body ++ ("\n```").toList) =
        ("```\n").toList ++ body ++ ("\n```").toList := by
      have := pyStrip_sandwich (a := '`') (b := '`') (by decide) (by decide)
        ('`' :: ('`' :: ('\n' :: (body ++ ('\n' :: ('`' :: ('`' :: [])))))))
      simpa [List.append_assoc] using this
    rw [hA]
    rw [(by rfl : (("```yaml".toList)).isPrefixOf
      (("```\n").toList ++ body ++ ("\n```").toList) = false)]
    rw [(by rfl : (("```yml".toList)).isPrefixOf
      (("```\n").toList ++ body ++ ("\n```").toList) = false)]
    rw [(by rfl : (("```".toList)).isPrefixOf
      (("```\n").toList ++ body ++ ("\n```").toList) = true)]
    simp only [Bool.false_eq_true, if_false, if_true]
    rw [(by rfl : (("```\n").toList ++ body ++ ("\n```").toList).drop 3 =
      '\n' :: (body ++ ('\n' :: ("```").toList)))]
    rw [(fence_tail body).1]
    simp only [if_true]
    exact (fence_tail body).2

/-- Witness for C3 on concrete inputs. -/
theorem strip_yaml_fences_spec_witness :
    stripYamlFences (("openapi: 3.1.1").toList) = pyStrip (("openapi: 3.1.1").toList) :=
  strip_yaml_fences_spec.1 (("openapi: 3.1.1").toList) (by decide) (by decide)

/-- Counterexample for C3 as stated: unfenced input with surrounding
whitespace is not returned unchanged. -/
theorem strip_yaml_fences_cex :
    stripYamlFences ((" A ").toList) ≠ (" A ").toList := by decide

-- ── C8: the output validator ─────────────────────────────────────────

/-- C8 (confirmed): the validator returns true exactly when the text
parses, the root is a mapping, and the mapping carries the top-level
openapi key; a parse failure (the caught YAMLError, modelled as none)
or structural mismatch yields false. -/
theorem validate_openapi_yaml_spec (parse : Str → Option Yaml) (text : Str) :
    validateOpenapiYaml parse text = true ↔
      ∃ d, parse text = some d ∧ d.isDict = true ∧
        d.hasStrKey (("openapi").toList) = true := by
  unfold validateOpenapiYaml
  cases hp : parse text with
  | none => simp
  | some d => simp

-- ── C6: framework detection order ────────────────────────────────────

theorem detectGo_findSome (fs : Fs) (l : List (Str × List (Str × Str))) :
    detectGo fs l =
      match l.findSome? (manifestResult fs) with
      | some r => r
      | none => .ok (("unknown").toList) := by
  induction l with
  | nil => rfl
  | cons e rest ih =>
    obtain ⟨mf, markers⟩ := e
    rw [List.findSome?_cons]
    simp only [detectGo, manifestResult]
    by_cases hp : fs.present mf = true
    · rw [if_pos hp, if_pos hp]
      cases hr : fs.read mf with
      | ok content =>
        cases hfm : findMarker (lowerS content) markers with
        | some fw => simp [hfm]
        | none => simpa [hfm] using ih
      | osErr => simpa using ih
      | decodeErr => simp
    · rw [if_neg hp, if_neg hp]
      simpa using ih

theorem detectGo_unknown (fs : Fs) (l : List (Str × List (Str × Str)))
    (h : ∀ e ∈ l, fs.present e.1 = false ∨ fs.read e.1 = .osErr) :
    detectGo fs l = .ok (("unknown").toList) := by
  induction l with
  | nil => rfl
  | cons e rest ih =>
    obtain ⟨mf, markers⟩ := e
    simp only [detectGo]
    rcases h (mf, markers) (by simp) with hp | hr
    · rw [hp]
      simp only [Bool.false_eq_true, if_false]
      exact ih (fun x hx => h x (by simp [hx]))
    · by_cases hp : fs.present mf = true
      · rw [if_pos hp, hr]
        exact ih (fun x hx => h x (by simp [hx]))
      · rw [if_neg hp]
        exact ih (fun x hx => h x (by simp [hx]))

theorem findMarker_findSome (content : Str) (markers : List (Str × Str)) :
    findMarker content markers =
      markers.findSome? (fun m => if isSubstr m.1 content then some m.2 else none) := by
  induction markers with
  | nil => rfl
  | cons m rest ih =>
    obtain ⟨sub, fw⟩ := m
    rw [List.findSome?_cons]
    simp only [findMarker]
    by_cases hs : isSubstr sub content = true
    · rw [if_pos hs]
      simp [hs]
    · rw [if_neg hs]
      simpa [hs] using ih

/-- C6 (corrected): detection scans the manifest table in order with
markers in order over lowercased content, returning the first hit;
with no manifest present, or every present manifest failing with an
OSError, or no marker matching, it returns unknown.  A present
manifest whose content cannot be decoded raises instead of being
treated as unreadable-hence-non-matching (see the counterexample). -/
theorem detect_framework_first_match :
    (∀ fs, detectFramework fs =
      match frameworkMarkers.findSome? (manifestResult fs) with
      | some r => r
      | none => .ok (("unknown").toList)) ∧
    (∀ fs, (∀ e ∈ frameworkMarkers, fs.present e.1 = false ∨ fs.read e.1 = .osErr) →
      detectFramework fs = .ok (("unknown").toList)) ∧
    (∀ content markers, findMarker content markers =
      markers.findSome? (fun m => if isSubstr m.1 content then some m.2 else none)) :=
  ⟨fun fs => detectGo_findSome fs frameworkMarkers,
   fun fs h => detectGo_unknown fs frameworkMarkers h,
   findMarker_findSome⟩

/-- Witness for C6: a filesystem with no manifests detects unknown. -/
theorem detect_framework_first_match_witness :
    detectFramework fsDecode = .ok (("unknown").toList) :=
  detect_framework_first_match.2.1 fsDecode (by decide)

/-- Counterexample for C6 as stated: a lone existing manifest that
fails to decode makes detection raise rather than return unknown. -/
theorem detect_framework_decode_cex :
    detectFramework fsManifestDecode ≠ .ok (("unknown").toList) := by
  intro h
  have h1 : detectFramework fsManifestDecode = .error () := by rfl
  rw [h1] at h
  exact Except.noConfusion h

-- ── C7: the file selector ────────────────────────────────────────────

theorem globInner_flat (fs : Fs) (maxF : Nat) (l : List Str) :
    ∀ rest seen results,
      (if (globInner fs maxF l seen results).2.2 = true then
        (globInner fs maxF l seen results).1
      else
        globFlat fs maxF rest (globInner fs maxF l seen results).2.1
          (globInner fs maxF l seen results).1) =
      globFlat fs maxF (l ++ rest) seen results := by
  induction l with
  | nil => intro rest seen results; simp [globInner, globFlat]
  | cons p ps ih =>
    intro rest seen results
    simp only [globInner, List.cons_append, globFlat]
    by_cases hc : (fs.isFile p && !(seen.contains p)) = true
    · rw [if_pos hc, if_pos hc]
      by_cases hskip : hasSkipDir p = true
      · rw [if_pos hskip, if_pos hskip]
        exact ih rest seen results
      · rw [if_neg hskip, if_neg hskip]
        by_cases hcap : maxF ≤ (results ++ [p]).length
        · rw [if_pos hcap, if_pos hcap]
          simp
        · rw [if_neg hcap, if_neg hcap]
          exact ih rest (p :: seen) (results ++ [p])
    · rw [if_neg hc, if_neg hc]
      exact ih rest seen results

theorem globOuter_flat (fs : Fs) (maxF : Nat) (pats : List Str) :
    ∀ seen results,
      globOuter fs maxF pats seen results =
        globFlat fs maxF
          ((pats.map fun pat => sortPaths (fs.glob pat)).flatten) seen results := by
  induction pats with
  | nil => intro seen results; rfl
  | cons pat pats ih =>
    intro seen results
    rw [List.map_cons, List.flatten_cons]
    have hmain := globInner_flat fs maxF (sortPaths (fs.glob pat))
      ((pats.map fun q => sortPaths (fs.glob q)).flatten) seen results
    rcases hg : globInner fs maxF (sortPaths (fs.glob pat)) seen results with
      ⟨r1, s1, done⟩
    rw [hg] at hmain
    simp only [globOuter, hg]
    rw [← hmain]
    cases done with
    | true => simp
    | false => simpa using ih s1 r1

theorem globFlat_spec (fs : Fs) (maxF : Nat) (l : List Str) :
    ∀ seen results, results.length < maxF →
      globFlat fs maxF l seen results =
        results ++ (dedupFirstAux seen (l.filter (goodPath fs))).take
          (maxF - results.length) := by
  induction l with
  | nil => intro seen results _; simp [globFlat, dedupFirstAux]
  | cons p ps ih =>
    intro seen results hlen
    simp only [globFlat, List.filter_cons]
    by_cases hif : fs.isFile p = true
    · by_cases hseen : seen.contains p = true
      · have hc : (fs.isFile p && !(seen.contains p)) = false := by
          rw [hif, hseen]
          decide
        rw [hc]
        simp only [Bool.false_eq_true, if_false]
        by_cases hskip : hasSkipDir p = true
        · have hgood : goodPath fs p = false := by simp [goodPath, hif, hskip]
          rw [hgood]
          simp only [Bool.false_eq_true, if_false]
          exact ih seen results hlen
        · have hgood : goodPath fs p = true := by
            simp [goodPath, hif, hskip]
          rw [hgood]
          simp only [if_true]
          rw [(by
            simp only [dedupFirstAux]
            rw [if_pos hseen] :
            dedupFirstAux seen (p :: ps.filter (goodPath fs)) =
              dedupFirstAux seen (ps.filter (goodPath fs)))]
          exact ih seen results hlen
      · have hseenb : seen.contains p = false := by simpa using hseen
        have hc : (fs.isFile p && !(seen.contains p)) = true := by
          rw [hif, hseenb]
          decide
        rw [hc]
        simp only [if_true]
        by_cases hskip : hasSkipDir p = true
        · rw [if_pos hskip]
          have hgood : goodPath fs p = false := by simp [goodPath, hif, hskip]
          rw [hgood]
          simp only [Bool.false_eq_true, if_false]
          exact ih seen results hlen
        · rw [if_neg hskip]
          have hgood : goodPath fs p = true := by
            simp [goodPath, hif, hskip]
          rw [hgood]
          simp only [if_true]
          rw [(by
            simp only [dedupFirstAux]
            rw [if_neg hseen] :
            dedupFirstAux seen (p :: ps.filter (goodPath fs)) =
              p :: dedupFirstAux (p :: seen) (ps.filter (goodPath fs)))]
          by_cases hcap : maxF ≤ (results ++ [p]).length
          · rw [if_pos hcap]
            have h1 : maxF - results.length = 1 := by
              simp only [List.length_append, List.length_cons,
                List.length_nil] at hcap ⊢
              omega
            rw [h1]
            simp
          · rw [if_neg hcap]
            have hlen2 : (results ++ [p]).length < maxF := by
              simp only [List.length_append, List.length_cons, List.length_nil] at hcap ⊢
              omega
            rw [ih (p :: seen) (results ++ [p]) hlen2]
            have h2 : maxF - results.length = (maxF - (results ++ [p]).length) + 1 := by
              simp only [List.length_append, List.length_cons, List.length_nil] at hcap ⊢
              omega
            rw [h2, List.take_succ_cons, List.append_assoc]
            rfl
    · have hc : (fs.isFile p && !(seen.contains p)) = false := by simp [hif]
      rw [hc]
      simp only [Bool.false_eq_true, if_false]
      have hgood : goodPath fs p = false := by simp [goodPath, hif]
      rw [hgood]
      simp only [Bool.false_eq_true, if_false]
      exact ih seen results hlen

theorem dedupFirstAux_mem {x : Str} (l : List Str) :
    ∀ seen, x ∈ dedupFirstAux seen l → x ∈ l := by
  induction l with
  | nil =>
    intro seen h
    simp only [dedupFirstAux] at h
    exact absurd h (by simp)
  | cons y ys ih =>
    intro seen h
    simp only [dedupFirstAux] at h
    by_cases hy : seen.contains y = true
    · rw [if_pos hy] at h
      exact List.mem_cons_of_mem y (ih seen h)
    · rw [if_neg hy] at h
      rcases List.mem_cons.mp h with rfl | h2
      · exact List.mem_cons_self x ys
      · exact List.mem_cons_of_mem y (ih (y :: seen) h2)

theorem dedupFirstAux_not_seen {x : Str} (l : List Str) :
    ∀ seen, x ∈ dedupFirstAux seen l → seen.contains x = false := by
  induction l with
  | nil => intro seen h; simp [dedupFirstAux] at h
  | cons y ys ih =>
    intro seen h
    simp only [dedupFirstAux] at h
    by_cases hy : seen.contains y = true
    · rw [if_pos hy] at h
      exact ih seen h
    · rw [if_neg hy] at h
      rcases List.mem_cons.mp h with rfl | h2
      · simpa using hy
      · have hcontains := ih (y :: seen) h2
        rw [List.contains_cons] at hcontains
        exact (Bool.or_eq_false_iff.mp hcontains).2

theorem dedupFirstAux_nodup (l : List Str) :
    ∀ seen, (dedupFirstAux seen l).Nodup := by
  induction l with
  | nil => intro seen; simp [dedupFirstAux]
  | cons y ys ih =>
    intro seen
    simp only [dedupFirstAux]
    by_cases hy : seen.contains y = true
    · rw [if_pos hy]
      exact ih seen
    · rw [if_neg hy]
      rw [List.nodup_cons]
      refine ⟨?_, ih (y :: seen)⟩
      intro hmem
      have := dedupFirstAux_not_seen ys (y :: seen) hmem
      simp [List.contains_cons] at this

theorem readFiles_ok_mem {fs : Fs} {cap : Nat} (paths : List Str) :
    ∀ l, readFiles fs paths cap = .ok l → ∀ pr ∈ l, pr.1 ∈ paths := by
  induction paths with
  | nil =>
    intro l h pr hpr
    simp only [readFiles] at h
    obtain rfl : ([] : List (Str × Str)) = l := by simpa using h
    simp at hpr
  | cons p rest ih =>
    intro l h pr hpr
    simp only [readFiles] at h
    cases hr : fs.read p with
    | ok content =>
      rw [hr] at h
      cases hrest : readFiles fs rest cap with
      | error e => rw [hrest] at h; exact absurd h (by simp [Except.map])
      | ok l2 =>
        rw [hrest] at h
        obtain rfl : (p, content.take cap) :: l2 = l := by
          simpa [Except.map] using h
        rcases List.mem_cons.mp hpr with rfl | h2
        · simp
        · exact List.mem_cons_of_mem p (ih l2 hrest pr h2)
    | osErr =>
      rw [hr] at h
      exact List.mem_cons_of_mem p (ih l h pr hpr)
    | decodeErr =>
      rw [hr] at h
      exact absurd h (by simp)

theorem readFiles_ok_length {fs : Fs} {cap : Nat} (paths : List Str) :
    ∀ l, readFiles fs paths cap = .ok l → l.length ≤ paths.length := by
  induction paths with
  | nil =>
    intro l h
    simp only [readFiles] at h
    obtain rfl : ([] : List (Str × Str)) = l := by simpa using h
    simp
  | cons p rest ih =>
    intro l h
    simp only [readFiles] at h
    cases hr : fs.read p with
    | ok content =>
      rw [hr] at h
      cases hrest : readFiles fs rest cap with
      | error e => rw [hrest] at h; exact absurd h (by simp [Except.map])
      | ok l2 =>
        rw [hrest] at h
        obtain rfl : (p, content.take cap) :: l2 = l := by
          simpa [Except.map] using h
        simpa using Nat.succ_le_succ (ih l2 hrest)
    | osErr =>
      rw [hr] at h
      exact Nat.le_succ_of_le (ih l h)
    | decodeErr =>
      rw [hr] at h
      exact absurd h (by simp)

-- ── Inversion of gather_api_context ──────────────────────────────────

theorem gather_ok_inv {re : ReCounts} {fs : Fs} {inc : List Str} {ctx : ApiContext}
    (h : gatherApiContext re fs inc = .ok ctx) :
    ∃ fw, detectFramework fs = .ok fw ∧
      readFiles fs (globFiles fs (lookupPatterns routePatternTable fw
        ++ genericRoutePatterns) 30) 4000 = .ok ctx.route_files ∧
      readFiles fs (globFiles fs (lookupPatterns schemaPatternTable fw
        ++ genericSchemaPatterns) 30) 4000 = .ok ctx.schema_files ∧
      readFiles fs (globFiles fs middlewarePatterns 15) 4000 = .ok ctx.middleware_files ∧
      readFiles fs (globFiles fs configPatterns 10) 4000 = .ok ctx.config_files ∧
      readIncludes fs inc = .ok ctx.extra_files ∧
      ctx.endpoint_count = countEndpoints re ctx.route_files ∧
      ctx.has_api_code =
        (decide (0 < ctx.endpoint_count) || decide (0 < ctx.route_files.length)) := by
  unfold gatherApiContext at h
  cases hpkg : readManifests fs with
  | error e => rw [hpkg] at h; exact absurd h (by simp)
  | ok pkg =>
  simp only [hpkg] at h
  cases hfw : detectFramework fs with
  | error e => rw [hfw] at h; exact absurd h (by simp)
  | ok fw =>
  simp only [hfw] at h
  cases hroute : readFiles fs (globFiles fs (lookupPatterns routePatternTable fw
      ++ genericRoutePatterns) 30) 4000 with
  | error e => rw [hroute] at h; exact absurd h (by simp)
  | ok routeFiles =>
  simp only [hroute] at h
  cases hschema : readFiles fs (globFiles fs (lookupPatterns schemaPatternTable fw
      ++ genericSchemaPatterns) 30) 4000 with
  | error e => rw [hschema] at h; exact absurd h (by simp)
  | ok schemaFiles =>
  simp only [hschema] at h
  cases hmiddleware : readFiles fs (globFiles fs middlewarePatterns 15) 4000 with
  | error e => rw [hmiddleware] at h; exact absurd h (by simp)
  | ok middlewareFiles =>
  simp only [hmiddleware] at h
  cases hconfig : readFiles fs (globFiles fs configPatterns 10) 4000 with
  | error e => rw [hconfig] at h; exact absurd h (by simp)
  | ok configFiles =>
  simp only [hconfig] at h
  cases hextra : readIncludes fs inc with
  | error e => rw [hextra] at h; exact absurd h (by simp)
  | ok extraFiles =>
  simp only [hextra] at h
  rw [Except.ok.injEq] at h
  subst h
  exact ⟨fw, rfl, hroute, hschema, rfl, rfl, rfl, rfl, rfl⟩

theorem glob_files_eq_spec (fs : Fs) (patterns : List Str) (maxFiles : Nat)
    (hpos : 0 < maxFiles) :
    globFiles fs patterns maxFiles = globFilesSpec fs patterns maxFiles := by
  unfold globFiles globFilesSpec dedupFirst
  rw [globOuter_flat, globFlat_spec fs maxFiles _ [] [] (by simpa using hpos)]
  simp

theorem glob_files_length_le (fs : Fs) (patterns : List Str) (maxFiles : Nat)
    (hpos : 0 < maxFiles) :
    (globFiles fs patterns maxFiles).length ≤ maxFiles := by
  rw [glob_files_eq_spec fs patterns maxFiles hpos]
  unfold globFilesSpec
  exact List.length_take_le _ _

-- ── C7 claim ─────────────────────────────────────────────────────────

/-- C7 (confirmed): the selector equals the declarative pipeline of
pattern order, lexical order within a pattern, the is-file and
ignored-directory filter, first occurrences only, cut at the maximum;
its output has no duplicates and respects the maximum, and the
contexts gather_api_context returns respect the role maxima of 30
routes, 30 schemas, 15 middleware and 10 config files. -/
theorem glob_files_selector_spec (fs : Fs) (patterns : List Str) (maxFiles : Nat)
    (hpos : 0 < maxFiles) :
    globFiles fs patterns maxFiles = globFilesSpec fs patterns maxFiles ∧
    (globFiles fs patterns maxFiles).Nodup ∧
    (globFiles fs patterns maxFiles).length ≤ maxFiles ∧
    (∀ re fs2 inc ctx, gatherApiContext re fs2 inc = .ok ctx →
      ctx.route_files.length ≤ 30 ∧ ctx.schema_files.length ≤ 30 ∧
      ctx.middleware_files.length ≤ 15 ∧ ctx.config_files.length ≤ 10) := by
  refine ⟨glob_files_eq_spec fs patterns maxFiles hpos, ?_,
    glob_files_length_le fs patterns maxFiles hpos, ?_⟩
  · rw [glob_files_eq_spec fs patterns maxFiles hpos]
    unfold globFilesSpec dedupFirst
    exact (List.take_sublist _ _).nodup (dedupFirstAux_nodup _ [])
  · intro re fs2 inc ctx h
    obtain ⟨fw, -, hroute, hschema, hmiddleware, hconfig, -, -, -⟩ := gather_ok_inv h
    exact ⟨le_trans (readFiles_ok_length _ _ hroute)
        (glob_files_length_le _ _ _ (by decide)),
      le_trans (readFiles_ok_length _ _ hschema)
        (glob_files_length_le _ _ _ (by decide)),
      le_trans (readFiles_ok_length _ _ hmiddleware)
        (glob_files_length_le _ _ _ (by decide)),
      le_trans (readFiles_ok_length _ _ hconfig)
        (glob_files_length_le _ _ _ (by decide))⟩

/-- Witness for C7 at a concrete filesystem and pattern list. -/
theorem glob_files_selector_spec_witness :
    globFiles fsGlob [("one").toList, ("two").toList] 30 =
      globFilesSpec fsGlob [("one").toList, ("two").toList] 30 :=
  (glob_files_selector_spec fsGlob [("one").toList, ("two").toList] 30 (by decide)).1

-- ── C5 claim ─────────────────────────────────────────────────────────

theorem glob_files_good {fs : Fs} {patterns : List Str} {maxF : Nat}
    (hpos : 0 < maxF) :
    ∀ p ∈ globFiles fs patterns maxF, goodPath fs p = true := by
  intro p hp
  rw [glob_files_eq_spec fs patterns maxF hpos] at hp
  unfold globFilesSpec dedupFirst at hp
  have h1 := (List.take_sublist _ _).subset hp
  have h2 := dedupFirstAux_mem _ [] h1
  exact List.of_mem_filter h2

/-- C5 (corrected): no file whose relative path contains an
ignored-directory segment appears in the four globbed categories of a
gathered context; the fifth category, extra_files, bypasses the
ignored-directory check (see the counterexample). -/
theorem gather_skip_dirs (re : ReCounts) (fs : Fs) (inc : List Str)
    (ctx : ApiContext) (h : gatherApiContext re fs inc = .ok ctx) :
    ∀ pr ∈ ctx.route_files ++ ctx.schema_files ++ ctx.middleware_files
        ++ ctx.config_files, hasSkipDir pr.1 = false := by
  obtain ⟨fw, -, hroute, hschema, hmiddleware, hconfig, -, -, -⟩ := gather_ok_inv h
  intro pr hpr
  have hgood : goodPath fs pr.1 = true := by
    rcases List.mem_append.mp hpr with hpr | hconf
    · rcases List.mem_append.mp hpr with hpr | hmid
      · rcases List.mem_append.mp hpr with hrt | hsc
        · exact glob_files_good (by decide)
            _ (readFiles_ok_mem _ _ hroute pr hrt)
        · exact glob_files_good (by decide)
            _ (readFiles_ok_mem _ _ hschema pr hsc)
      · exact glob_files_good (by decide)
          _ (readFiles_ok_mem _ _ hmiddleware pr hmid)
    · exact glob_files_good (by decide)
        _ (readFiles_ok_mem _ _ hconfig pr hconf)
  simp only [goodPath, Bool.and_eq_true, Bool.not_eq_true'] at hgood
  exact hgood.2

/-- Witness for C5 at a concrete project whose route category is
non-empty: the one gathered route file is outside the ignored
directories. -/
theorem gather_skip_dirs_witness :
    hasSkipDir (("api/users.py").toList) = false :=
  gather_skip_dirs reZero fsRoutes [] ctxRoutes (by rfl)
    ((("api/users.py").toList, ("r.get(x)").toList)) (by decide)

/-- Counterexample for C5 as stated: an include file under
node_modules lands in extra_files even though its path contains an
ignored-directory segment. -/
theorem gather_extra_skip_dir_cex :
    gatherApiContext reZero fsInclude [("node_modules/x.js").toList] =
      .ok { project_name := ("proj").toList,
            extra_files := [(("node_modules/x.js").toList, ("x").toList)] } ∧
    hasSkipDir (("node_modules/x.js").toList) = true := by
  exact ⟨by rfl, by decide⟩

-- ── C9 claim ─────────────────────────────────────────────────────────

/-- C9 (confirmed): a positive endpoint count forces a non-empty route
category, and has_api_code is true exactly when route_files is
non-empty, making the endpoint-count disjunct redundant. -/
theorem gather_has_api_code_iff (re : ReCounts) (fs : Fs) (inc : List Str)
    (ctx : ApiContext) (h : gatherApiContext re fs inc = .ok ctx) :
    (0 < ctx.endpoint_count → ctx.route_files ≠ []) ∧
    (ctx.has_api_code = true ↔ ctx.route_files ≠ []) := by
  obtain ⟨fw, -, -, -, -, -, -, hep, hhac⟩ := gather_ok_inv h
  have hforce : 0 < ctx.endpoint_count → ctx.route_files ≠ [] := by
    intro hpos hnil
    rw [hnil] at hep
    rw [hep] at hpos
    exact absurd hpos (by simp [countEndpoints])
  refine ⟨hforce, ?_⟩
  rw [hhac]
  constructor
  · intro hor
    rcases (by simpa using hor :
        0 < ctx.endpoint_count ∨ 0 < ctx.route_files.length) with hd | hd
    · exact hforce hd
    · intro hnil
      rw [hnil] at hd
      simp at hd
  · intro hne
    have : 0 < ctx.route_files.length := List.length_pos.mpr hne
    simp [this]

/-- Witness for C9 at a concrete project. -/
theorem gather_has_api_code_iff_witness :
    (0 < ctxRoutes.endpoint_count → ctxRoutes.route_files ≠ []) ∧
    (ctxRoutes.has_api_code = true ↔ ctxRoutes.route_files ≠ []) :=
  gather_has_api_code_iff reZero fsRoutes [] ctxRoutes (by rfl)

-- ── C4/C10: the endpoint-doc parser ──────────────────────────────────

theorem nameChar_not_ws {c : Char} (h : isNameChar c = true) : pyWs c = false := by
  simp only [pyWs, Bool.or_eq_false_iff, decide_eq_false_iff_not]
  refine ⟨⟨⟨⟨⟨?_, ?_⟩, ?_⟩, ?_⟩, ?_⟩, ?_⟩ <;>
    · intro heq
      subst heq
      exact absurd h (by decide)

theorem nameChar_ne_newline {c : Char} (h : isNameChar c = true) : ¬ c = '\n' := by
  intro heq
  subst heq
  exact absurd h (by decide)

theorem nameChar_ne_dot {c : Char} (h : isNameChar c = true) : ('.' == c) = false := by
  cases hc : ('.' == c) with
  | false => rfl
  | true =>
    obtain rfl : '.' = c := by simpa using hc
    exact absurd h (by decide)

theorem dmdot_not_lead {l : Str} (h : l.all isNameChar = true) :
    (['d', 'm', '.'].isPrefixOf l) = false := by
  rcases l with - | ⟨x, - | ⟨y, - | ⟨z, r⟩⟩⟩
  · rfl
  · simp [List.isPrefixOf]
  · simp [List.isPrefixOf]
  · have hz : isNameChar z = true := by
      simp only [List.all_cons, Bool.and_eq_true] at h
      exact h.2.2.1
    simp [List.isPrefixOf, nameChar_ne_dot hz]

/-- Scanning well-formed name characters never fires the capture
condition: the candidate cannot yet end in dot-m-d. -/
theorem tryGroup_nameChars (s : Str) :
    ∀ accRev tail2, s.all isNameChar = true → accRev.all isNameChar = true →
      tryGroup accRev (s ++ tail2) = tryGroup (s.reverse ++ accRev) tail2 := by
  induction s with
  | nil => intro accRev tail2 _ _; simp
  | cons a s' ih =>
    intro accRev tail2 hs hacc
    simp only [List.all_cons, Bool.and_eq_true] at hs
    have ha : isNameChar a = true := hs.1
    rw [List.cons_append]
    simp only [tryGroup]
    rw [if_neg (nameChar_ne_newline ha)]
    rw [dmdot_not_lead (l := a :: accRev) (by simp [ha, hacc])]
    simp only [Bool.false_and, Bool.false_eq_true, if_false]
    rw [ih (a :: accRev) tail2 hs.2 (by simp [ha, hacc])]
    simp [List.reverse_cons, List.append_assoc]

/-- At the dot-m-d extension followed by space and three hyphens the
lazy capture fires, returning the whole name and the text after the
hyphens. -/
theorem tryGroup_finish (accRev tail : Str) (hne : accRev ≠ [])
    (_hacc : accRev.all isNameChar = true) :
    tryGroup accRev ('.' :: 'm' :: 'd' :: ' ' :: (dashes ++ tail)) =
      some (accRev.reverse ++ ('.' :: 'm' :: ['d']), tail) := by
  have hlen : 0 < accRev.length := List.length_pos.mpr hne
  simp only [tryGroup]
  rw [if_neg (by decide : ¬('.' = '\n'))]
  rw [(by simp [List.isPrefixOf] : (['d', 'm', '.'].isPrefixOf ('.' :: accRev)) = false)]
  simp only [Bool.false_and, Bool.false_eq_true, if_false]
  rw [if_neg (by decide : ¬('m' = '\n'))]
  rw [(by simp [List.isPrefixOf] :
    (['d', 'm', '.'].isPrefixOf ('m' :: '.' :: accRev)) = false)]
  simp only [Bool.false_and, Bool.false_eq_true, if_false]
  rw [if_neg (by decide : ¬('d' = '\n'))]
  have hcond : (['d', 'm', '.'].isPrefixOf ('d' :: 'm' :: '.' :: accRev) &&
      decide (4 ≤ ('d' :: 'm' :: '.' :: accRev).length) &&
      dashes.isPrefixOf (dropWs (' ' :: (dashes ++ tail)))) = true := by
    have h1 : (['d', 'm', '.'].isPrefixOf ('d' :: 'm' :: '.' :: accRev)) = true := by
      simp [List.isPrefixOf]
    have h2 : decide (4 ≤ ('d' :: 'm' :: '.' :: accRev).length) = true := by
      simp only [List.length_cons]
      exact decide_eq_true (by omega)
    have h3 : dropWs (' ' :: (dashes ++ tail)) = dashes ++ tail := by
      simp [dropWs, List.dropWhile_cons, (by decide : pyWs ' ' = true),
        (by decide : pyWs '-' = false), dashes]
    have h4 : (dashes.isPrefixOf (dashes ++ tail)) = true :=
      List.isPrefixOf_iff_prefix.mpr ⟨tail, rfl⟩
    rw [h1, h2, h3, h4]
    rfl
  rw [if_pos hcond]
  have h3 : dropWs (' ' :: (dashes ++ tail)) = dashes ++ tail := by
    simp [dropWs, List.dropWhile_cons, (by decide : pyWs ' ' = true),
      (by decide : pyWs '-' = false), dashes]
  rw [h3]
  simp [dashes, List.append_assoc]

/-- The delimiter matcher on one rendered delimiter: it captures
exactly the well-formed filename and stops after the closing hyphens. -/
theorem matchAt_delim (a : Char) (as tail : Str)
    (hall : (a :: as).all isNameChar = true) :
    matchAt (("--- FILE: ").toList ++
        ((a :: as) ++ ('.' :: 'm' :: 'd' :: ' ' :: (dashes ++ tail)))) =
      some ((a :: as) ++ ('.' :: 'm' :: ['d']), tail) := by
  have ha : isNameChar a = true := by
    simp only [List.all_cons, Bool.and_eq_true] at hall
    exact hall.1
  unfold matchAt
  rw [if_pos ?hpre]
  case hpre =>
    exact List.isPrefixOf_iff_prefix.mpr ⟨_, rfl⟩
  rw [(by rfl : (("--- FILE: ").toList ++
      ((a :: as) ++ ('.' :: 'm' :: 'd' :: ' ' :: (dashes ++ tail)))).drop 3 =
    ' ' :: 'F' :: 'I' :: 'L' :: 'E' :: ':' :: ' ' ::
      ((a :: as) ++ ('.' :: 'm' :: 'd' :: ' ' :: (dashes ++ tail))))]
  rw [(by simp [dropWs, List.dropWhile_cons, (by decide : pyWs ' ' = true),
      (by decide : pyWs 'F' = false)] :
    dropWs (' ' :: 'F' :: 'I' :: 'L' :: 'E' :: ':' :: ' ' ::
        ((a :: as) ++ ('.' :: 'm' :: 'd' :: ' ' :: (dashes ++ tail)))) =
      'F' :: 'I' :: 'L' :: 'E' :: ':' :: ' ' ::
        ((a :: as) ++ ('.' :: 'm' :: 'd' :: ' ' :: (dashes ++ tail))))]
  rw [if_pos ?hfile]
  case hfile =>
    exact List.isPrefixOf_iff_prefix.mpr ⟨_, rfl⟩
  rw [(by rfl : ('F' :: 'I' :: 'L' :: 'E' :: ':' :: ' ' ::
      ((a :: as) ++ ('.' :: 'm' :: 'd' :: ' ' :: (dashes ++ tail)))).drop 5 =
    ' ' :: ((a :: as) ++ ('.' :: 'm' :: 'd' :: ' ' :: (dashes ++ tail))))]
  have hws : wsRun (' ' :: ((a :: as) ++ ('.' :: 'm' :: 'd' :: ' ' ::
      (dashes ++ tail)))) = 1 := by
    simp [wsRun, List.takeWhile_cons, (by decide : pyWs ' ' = true),
      nameChar_not_ws ha]
  simp only [hws]
  simp only [tryKs, List.drop_succ_cons, List.drop_zero]
  rw [(by simp [List.append_assoc] : (a :: as) ++ ('.' :: 'm' :: 'd' :: ' ' ::
      (dashes ++ tail)) = (a :: as) ++ (('.' :: 'm' :: 'd' :: ' ' ::
      (dashes ++ tail))))]
  rw [tryGroup_nameChars (a :: as) [] _ hall (by decide)]
  rw [List.append_nil]
  rw [tryGroup_finish ((a :: as).reverse) tail (by simp)
    (by rw [List.all_reverse]; exact hall)]
  simp

theorem findMatch_head {cs g r : Str} (h : matchAt cs = some (g, r)) :
    findMatch cs = some ([], g, r) := by
  cases cs with
  | nil => exact absurd h (by simp [matchAt, dashes, List.isPrefixOf])
  | cons c rest =>
    simp only [findMatch, h]

theorem matchAt_not_dash {cs : Str} (h : dashes.isPrefixOf cs = false) :
    matchAt cs = none := by
  unfold matchAt
  rw [h]
  simp

theorem dashes_prefix_extend {a : Char} (c' tail : Str)
    (h : dashes.isPrefixOf (a :: (c' ++ '\n' :: tail)) = true) :
    dashes.isPrefixOf (a :: c') = true := by
  rcases c' with - | ⟨y, - | ⟨z, r⟩⟩
  · simp [dashes, List.isPrefixOf, (by decide : ('-' == '\n') = false)] at h
  · simp [dashes, List.isPrefixOf, (by decide : ('-' == '\n') = false)] at h
  · simpa [dashes, List.isPrefixOf] using h

/-- Scanning a dash-free content region finds no delimiter before the
newline that ends it. -/
theorem findMatch_content (c : Str) :
    ∀ tail, hasDashes c = false → findMatch (c ++ '\n' :: tail) =
      (findMatch tail).map (fun x => ((c ++ ['\n']) ++ x.1, x.2.1, x.2.2)) := by
  induction c with
  | nil =>
    intro tail _
    rw [List.nil_append]
    rw [(by rfl : findMatch ('\n' :: tail) =
      match matchAt ('\n' :: tail) with
      | some (g, r) => some ([], g, r)
      | none => (findMatch tail).map (fun x => ('\n' :: x.1, x.2.1, x.2.2)))]
    rw [matchAt_not_dash (by simp [dashes, List.isPrefixOf,
      (by decide : ('-' == '\n') = false)])]
    cases findMatch tail with
    | none => rfl
    | some x => simp
  | cons a c' ih =>
    intro tail hnd
    rw [(by rfl : hasDashes (a :: c') =
      (dashes.isPrefixOf (a :: c') || hasDashes c'))] at hnd
    rw [Bool.or_eq_false_iff] at hnd
    rw [List.cons_append]
    rw [(by rfl : findMatch (a :: (c' ++ '\n' :: tail)) =
      match matchAt (a :: (c' ++ '\n' :: tail)) with
      | some (g, r) => some ([], g, r)
      | none => (findMatch (c' ++ '\n' :: tail)).map
          (fun x => (a :: x.1, x.2.1, x.2.2)))]
    have hma : matchAt (a :: (c' ++ '\n' :: tail)) = none := by
      apply matchAt_not_dash
      cases hdp : dashes.isPrefixOf (a :: (c' ++ '\n' :: tail)) with
      | false => rfl
      | true => exact absurd (dashes_prefix_extend c' tail hdp) (by simp [hnd.1])
    rw [hma, ih tail hnd.2]
    cases findMatch tail with
    | none => rfl
    | some x => simp

theorem wfName_decomp {f : Str} (h : wfName f = true) :
    ∃ a as2, f = (a :: as2) ++ ('.' :: 'm' :: ['d']) ∧
      ((a :: as2).all isNameChar) = true := by
  simp only [wfName, Bool.and_eq_true] at h
  obtain ⟨⟨h1, h2⟩, h3⟩ := h
  obtain ⟨pre, hpre⟩ : ∃ t, t ++ (".md").toList = f :=
    List.isSuffixOf_iff_suffix.mp h1
  have hlen : f.length = pre.length + 3 := by
    rw [← hpre]
    simp
  have htake : f.take (f.length - 3) = pre := by
    rw [hlen, ← hpre]
    have := List.take_left pre ((".md").toList)
    simp only [Nat.add_sub_cancel]
    exact this
  rw [htake] at h3
  have hlen4 : 4 ≤ f.length := of_decide_eq_true h2
  cases hp : pre with
  | nil =>
    exfalso
    rw [hp] at hlen
    simp at hlen
    omega
  | cons a as2 =>
    refine ⟨a, as2, ?_, by rw [← hp]; exact h3⟩
    rw [← hpre, hp, (show (".md").toList = '.' :: 'm' :: ['d'] from rfl)]

theorem wfName_not_ws {f : Str} (h : wfName f = true) :
    ∀ ch ∈ f, pyWs ch = false := by
  obtain ⟨a, as2, rfl, hall⟩ := wfName_decomp h
  intro ch hch
  rcases List.mem_append.mp hch with hm | hm
  · exact nameChar_not_ws (List.all_eq_true.mp hall ch hm)
  · have hch3 : ch = '.' ∨ ch = 'm' ∨ ch = 'd' := by simpa using hm
    rcases hch3 with rfl | rfl | rfl <;> decide

theorem wfName_strip {f : Str} (h : wfName f = true) :
    pyStrip f = f ∧ f ≠ [] := by
  refine ⟨pyStrip_all_false (wfName_not_ws h), ?_⟩
  obtain ⟨a, as2, rfl, -⟩ := wfName_decomp h
  simp

theorem wfContent_decomp {c : Str} (h : wfContent c = true) :
    hasDashes c = false ∧ c.any (fun ch => !(pyWs ch)) = true := by
  simp only [wfContent, Bool.and_eq_true, Bool.not_eq_true'] at h
  exact h

theorem renderPair_decomp (a : Char) (as2 c R : Str) :
    renderPair ((a :: as2) ++ ('.' :: 'm' :: ['d'])) c ++ R =
      ("--- FILE: ").toList ++ ((a :: as2) ++ ('.' :: 'm' :: 'd' :: ' ' ::
        (dashes ++ ('\n' :: (c ++ '\n' :: R))))) := by
  rw [renderPair]
  rw [(show (" ---\n").toList = ' ' :: '-' :: '-' :: '-' :: ['\n'] from rfl)]
  simp [dashes, List.append_assoc]

theorem findMatch_render (f c R : Str) (hf : wfName f = true) :
    findMatch (renderPair f c ++ R) = some ([], f, '\n' :: (c ++ '\n' :: R)) := by
  obtain ⟨a, as2, rfl, hall⟩ := wfName_decomp hf
  rw [renderPair_decomp]
  exact findMatch_head (matchAt_delim a as2 _ hall)

theorem dangling_decomp (a : Char) (as2 : Str) :
    danglingDelim ((a :: as2) ++ ('.' :: 'm' :: ['d'])) =
      ("--- FILE: ").toList ++ ((a :: as2) ++ ('.' :: 'm' :: 'd' :: ' ' ::
        (dashes ++ []))) := by
  rw [danglingDelim]
  rw [(show (" ---").toList = ' ' :: '-' :: '-' :: ['-'] from rfl)]
  simp [dashes, List.append_assoc]

theorem findMatch_dangling (f : Str) (hf : wfName f = true) :
    findMatch (danglingDelim f) = some ([], f, []) := by
  obtain ⟨a, as2, rfl, hall⟩ := wfName_decomp hf
  rw [dangling_decomp]
  exact findMatch_head (matchAt_delim a as2 [] hall)

theorem findMatch_region (c tail : Str) (hnd : hasDashes c = false) :
    findMatch ('\n' :: (c ++ '\n' :: tail)) =
      (findMatch tail).map
        (fun x => (('\n' :: (c ++ ['\n'])) ++ x.1, x.2.1, x.2.2)) := by
  rw [(by rfl : findMatch ('\n' :: (c ++ '\n' :: tail)) =
    match matchAt ('\n' :: (c ++ '\n' :: tail)) with
    | some (g, r) => some ([], g, r)
    | none => (findMatch (c ++ '\n' :: tail)).map
        (fun x => ('\n' :: x.1, x.2.1, x.2.2)))]
  rw [matchAt_not_dash (by simp [dashes, List.isPrefixOf,
    (by decide : ('-' == '\n') = false)])]
  rw [findMatch_content c tail hnd]
  cases findMatch tail with
  | none => rfl
  | some x => simp

theorem collectAux_nil (fuel : Nat) (g : Str) :
    collectAux fuel g [] = [(g, [])] := by
  cases fuel with
  | zero => rfl
  | succ n => simp [collectAux, findMatch]

theorem renderPair_length (f c : Str) :
    (renderPair f c).length = f.length + c.length + 16 := by
  rw [renderPair]
  simp [List.length_append,
    (show (("--- FILE: ").toList).length = 10 from rfl),
    (show ((" ---\n").toList).length = 5 from rfl)]
  omega

theorem wfPair_decomp {f c : Str} (h : wfPair (f, c) = true) :
    wfName f = true ∧ hasDashes c = false ∧
      c.any (fun ch => !(pyWs ch)) = true := by
  simp only [wfPair, Bool.and_eq_true] at h
  exact ⟨h.1, wfContent_decomp h.2⟩

theorem collectAux_render (ps : List (Str × Str)) :
    ∀ g c fuel, ps.all wfPair = true → hasDashes c = false →
      ('\n' :: (c ++ '\n' :: renderDoc ps)).length ≤ fuel →
      collectAux fuel g ('\n' :: (c ++ '\n' :: renderDoc ps)) =
        (g, '\n' :: (c ++ ['\n'])) ::
          ps.map (fun p => (p.1, '\n' :: (p.2 ++ ['\n']))) := by
  induction ps with
  | nil =>
    intro g c fuel _ hnd hfuel
    cases fuel with
    | zero => simp at hfuel
    | succ n =>
      simp only [collectAux]
      rw [findMatch_region c (renderDoc []) hnd]
      rw [(by rfl : findMatch (renderDoc ([] : List (Str × Str))) = none)]
      simp [renderDoc]
  | cons p ps' ih =>
    intro g c fuel hwf hnd hfuel
    obtain ⟨f2, c2⟩ := p
    have hwf2 : wfPair (f2, c2) = true ∧ ps'.all wfPair = true := by
      simpa using hwf
    obtain ⟨hf2, hc2d, hc2a⟩ := wfPair_decomp hwf2.1
    rw [(by rfl : renderDoc ((f2, c2) :: ps') =
      renderPair f2 c2 ++ renderDoc ps')] at hfuel ⊢
    cases fuel with
    | zero => simp at hfuel
    | succ n =>
      simp only [collectAux]
      rw [findMatch_region c _ hnd,
        findMatch_render f2 c2 (renderDoc ps') hf2]
      simp only [Option.map_some']
      have hfl : ('\n' :: (c2 ++ '\n' :: renderDoc ps')).length ≤ n := by
        simp only [List.length_cons, List.length_append,
          renderPair_length] at hfuel ⊢
        omega
      rw [ih f2 c2 n hwf2.2 hc2d hfl]
      simp

theorem collectAux_render_dangling (ps : List (Str × Str)) :
    ∀ g c fuel fd, ps.all wfPair = true → hasDashes c = false →
      wfName fd = true →
      ('\n' :: (c ++ '\n' :: (renderDoc ps ++ danglingDelim fd))).length ≤ fuel →
      collectAux fuel g ('\n' :: (c ++ '\n' :: (renderDoc ps ++ danglingDelim fd))) =
        ((g, '\n' :: (c ++ ['\n'])) ::
          ps.map (fun p => (p.1, '\n' :: (p.2 ++ ['\n'])))) ++ [(fd, [])] := by
  induction ps with
  | nil =>
    intro g c fuel fd _ hnd hfd hfuel
    rw [(by rfl : renderDoc ([] : List (Str × Str)) = ([] : Str)),
      List.nil_append] at hfuel ⊢
    cases fuel with
    | zero => simp at hfuel
    | succ n =>
      simp only [collectAux]
      rw [findMatch_region c _ hnd, findMatch_dangling fd hfd]
      simp only [Option.map_some']
      rw [collectAux_nil n fd]
      simp
  | cons p ps' ih =>
    intro g c fuel fd hwf hnd hfd hfuel
    obtain ⟨f2, c2⟩ := p
    have hwf2 : wfPair (f2, c2) = true ∧ ps'.all wfPair = true := by
      simpa using hwf
    obtain ⟨hf2, hc2d, hc2a⟩ := wfPair_decomp hwf2.1
    rw [(by rfl : renderDoc ((f2, c2) :: ps') =
      renderPair f2 c2 ++ renderDoc ps'), List.append_assoc] at hfuel ⊢
    cases fuel with
    | zero => simp at hfuel
    | succ n =>
      simp only [collectAux]
      rw [findMatch_region c _ hnd,
        findMatch_render f2 c2 (renderDoc ps' ++ danglingDelim fd) hf2]
      simp only [Option.map_some']
      have hfl : ('\n' :: (c2 ++ '\n' ::
          (renderDoc ps' ++ danglingDelim fd))).length ≤ n := by
        simp only [List.length_cons, List.length_append,
          renderPair_length] at hfuel ⊢
        omega
      rw [ih f2 c2 n fd hwf2.2 hc2d hfd hfl]
      simp

theorem filterStep_map (l : List (Str × Str)) (hl : l.all wfPair = true) :
    (l.map (fun p => (p.1, '\n' :: (p.2 ++ ['\n'])))).filterMap (fun p =>
      if (pyStrip p.1).isEmpty || (pyStrip p.2).isEmpty then none
      else some (pyStrip p.1, pyStrip p.2)) =
    l.map (fun p => (p.1, pyStrip p.2)) := by
  induction l with
  | nil => rfl
  | cons p l' ih =>
    obtain ⟨f1, c1⟩ := p
    have hwf2 : wfPair (f1, c1) = true ∧ l'.all wfPair = true := by
      simpa using hl
    obtain ⟨hf1, hc1d, hc1a⟩ := wfPair_decomp hwf2.1
    obtain ⟨hstrip, hne⟩ := wfName_strip hf1
    rw [List.map_cons, List.filterMap_cons]
    simp only []
    rw [hstrip, pyStrip_region c1]
    rw [(by simpa using hne : f1.isEmpty = false)]
    rw [(by simpa using pyStrip_ne_nil hc1a : (pyStrip c1).isEmpty = false)]
    simp only [Bool.or_self, Bool.false_eq_true, if_false]
    rw [ih hwf2.2]
    rfl

/-- C4 (confirmed): the parser is total; empty input parses to the
empty list; a well-formed response with N delimiter-separated
documents parses to exactly those N (filename, stripped-content) pairs
in document order; and a dangling trailing delimiter with no content
after it is dropped rather than emitted. -/
theorem parse_endpoint_docs_spec :
    parseEndpointDocs [] = [] ∧
    (∀ ps, ps.all wfPair = true →
      parseEndpointDocs (renderDoc ps) = ps.map (fun p => (p.1, pyStrip p.2)) ∧
      (parseEndpointDocs (renderDoc ps)).length = ps.length) ∧
    (∀ ps fd, ps.all wfPair = true → wfName fd = true →
      parseEndpointDocs (renderDoc ps ++ danglingDelim fd) =
        ps.map (fun p => (p.1, pyStrip p.2))) := by
  have hmain : ∀ ps, ps.all wfPair = true →
      parseEndpointDocs (renderDoc ps) = ps.map (fun p => (p.1, pyStrip p.2)) := by
    intro ps hwf
    cases ps with
    | nil => rfl
    | cons p ps' =>
      obtain ⟨f1, c1⟩ := p
      have hwf2 : wfPair (f1, c1) = true ∧ ps'.all wfPair = true := by
        simpa using hwf
      obtain ⟨hf1, hc1d, hc1a⟩ := wfPair_decomp hwf2.1
      simp only [parseEndpointDocs]
      rw [(by rfl : renderDoc ((f1, c1) :: ps') =
        renderPair f1 c1 ++ renderDoc ps')]
      rw [findMatch_render f1 c1 (renderDoc ps') hf1]
      simp only []
      rw [collectAux_render ps' f1 c1 _ hwf2.2 hc1d (by omega)]
      rw [(by rfl : (f1, '\n' :: (c1 ++ ['\n'])) ::
          ps'.map (fun p => (p.1, '\n' :: (p.2 ++ ['\n']))) =
        ((f1, c1) :: ps').map (fun p => (p.1, '\n' :: (p.2 ++ ['\n']))))]
      exact filterStep_map ((f1, c1) :: ps') hwf
  refine ⟨rfl, fun ps hwf => ⟨hmain ps hwf, by rw [hmain ps hwf]; simp⟩, ?_⟩
  intro ps fd hwf hfd
  cases ps with
  | nil =>
    rw [(by rfl : renderDoc ([] : List (Str × Str)) = ([] : Str)),
      List.nil_append]
    simp only [parseEndpointDocs]
    rw [findMatch_dangling fd hfd]
    simp only []
    rw [collectAux_nil _ fd]
    simp [List.filterMap_cons, (show pyStrip ([] : Str) = [] from rfl)]
  | cons p ps' =>
    obtain ⟨f1, c1⟩ := p
    have hwf2 : wfPair (f1, c1) = true ∧ ps'.all wfPair = true := by
      simpa using hwf
    obtain ⟨hf1, hc1d, hc1a⟩ := wfPair_decomp hwf2.1
    simp only [parseEndpointDocs]
    rw [(by rfl : renderDoc ((f1, c1) :: ps') =
      renderPair f1 c1 ++ renderDoc ps'), List.append_assoc]
    rw [findMatch_render f1 c1 (renderDoc ps' ++ danglingDelim fd) hf1]
    simp only []
    rw [collectAux_render_dangling ps' f1 c1 _ fd hwf2.2 hc1d hfd (by omega)]
    rw [List.filterMap_append]
    rw [(by rfl : (f1, '\n' :: (c1 ++ ['\n'])) ::
        ps'.map (fun p => (p.1, '\n' :: (p.2 ++ ['\n']))) =
      ((f1, c1) :: ps').map (fun p => (p.1, '\n' :: (p.2 ++ ['\n']))))]
    rw [filterStep_map ((f1, c1) :: ps') hwf]
    simp [List.filterMap_cons, (show pyStrip ([] : Str) = [] from rfl)]

/-- Witness for C4 on a concrete two-document response with a dangling
trailing delimiter. -/
theorem parse_endpoint_docs_spec_witness :
    parseEndpointDocs (renderDoc
        [(("get-api-users.md").toList, ("doc one").toList),
         (("post-api-users.md").toList, ("doc two").toList)] ++
      danglingDelim (("dangling.md").toList)) =
      [(("get-api-users.md").toList, pyStrip (("doc one").toList)),
       (("post-api-users.md").toList, pyStrip (("doc two").toList))] :=
  parse_endpoint_docs_spec.2.2
    [(("get-api-users.md").toList, ("doc one").toList),
     (("post-api-users.md").toList, ("doc two").toList)]
    (("dangling.md").toList) (by decide) (by decide)

theorem tryGroup_some_mdSuffix (rest : Str) :
    ∀ acc g r, tryGroup acc rest = some (g, r) → mdSuffix g = true := by
  induction rest with
  | nil => intro acc g r h; simp [tryGroup] at h
  | cons ch rs ih =>
    intro acc g r h
    simp only [tryGroup] at h
    by_cases hnl : ch = '\n'
    · rw [if_pos hnl] at h
      simp at h
    · rw [if_neg hnl] at h
      by_cases hcond : (['d', 'm', '.'].isPrefixOf (ch :: acc) &&
          decide (4 ≤ (ch :: acc).length) &&
          dashes.isPrefixOf (dropWs rs)) = true
      · rw [if_pos hcond] at h
        obtain ⟨⟨hA, -⟩, -⟩ :
            ((['d', 'm', '.'].isPrefixOf (ch :: acc)) = true ∧
              decide (4 ≤ (ch :: acc).length) = true) ∧
            (dashes.isPrefixOf (dropWs rs)) = true := by
          simpa [Bool.and_eq_true] using hcond
        rw [Option.some.injEq, Prod.mk.injEq] at h
        rw [← h.1]
        show ((".md").toList).isSuffixOf ((ch :: acc).reverse) = true
        show ((".md").toList).reverse.isPrefixOf ((ch :: acc).reverse).reverse = true
        rw [List.reverse_reverse]
        exact (show ((".md").toList).reverse = ['d', 'm', '.'] from rfl) ▸ hA
      · rw [if_neg hcond] at h
        exact ih (ch :: acc) g r h

theorem tryKs_some_mdSuffix (k : Nat) :
    ∀ cs g r, tryKs k cs = some (g, r) → mdSuffix g = true := by
  induction k with
  | zero => intro cs g r h; exact tryGroup_some_mdSuffix cs [] g r h
  | succ k ih =>
    intro cs g r h
    simp only [tryKs] at h
    cases htg : tryGroup [] (cs.drop (k + 1)) with
    | some x =>
      rw [htg] at h
      obtain rfl : x = (g, r) := by simpa using h
      exact tryGroup_some_mdSuffix _ [] g r htg
    | none =>
      rw [htg] at h
      exact ih cs g r h

theorem matchAt_some_mdSuffix {cs g r : Str} (h : matchAt cs = some (g, r)) :
    mdSuffix g = true := by
  simp only [matchAt] at h
  by_cases h1 : (dashes.isPrefixOf cs) = true
  · rw [if_pos h1] at h
    by_cases h2 : (("FILE:").toList).isPrefixOf (dropWs (cs.drop 3)) = true
    · rw [if_pos h2] at h
      exact tryKs_some_mdSuffix _ _ g r h
    · rw [if_neg h2] at h
      exact absurd h (by simp)
  · rw [if_neg h1] at h
    exact absurd h (by simp)

theorem findMatch_some_mdSuffix (cs : Str) :
    ∀ b g r, findMatch cs = some (b, g, r) → mdSuffix g = true := by
  induction cs with
  | nil => intro b g r h; simp [findMatch] at h
  | cons c rest ih =>
    intro b g r h
    simp only [findMatch] at h
    cases hma : matchAt (c :: rest) with
    | some x =>
      obtain ⟨g0, r0⟩ := x
      rw [hma] at h
      obtain ⟨-, rfl, -⟩ : ([] : Str) = b ∧ g0 = g ∧ r0 = r := by
        simpa using h
      exact matchAt_some_mdSuffix hma
    | none =>
      rw [hma] at h
      cases hfm : findMatch rest with
      | none => rw [hfm] at h; simp at h
      | some x =>
        obtain ⟨b', g', r'⟩ := x
        rw [hfm] at h
        obtain ⟨-, rfl, -⟩ : c :: b' = b ∧ g' = g ∧ r' = r := by
          simpa using h
        exact ih b' _ r' hfm

theorem collectAux_mdSuffix (fuel : Nat) :
    ∀ g0 cs, mdSuffix g0 = true →
      ∀ pr ∈ collectAux fuel g0 cs, mdSuffix pr.1 = true := by
  induction fuel with
  | zero =>
    intro g0 cs h0 pr hpr
    obtain rfl : pr = (g0, cs) := by simpa [collectAux] using hpr
    exact h0
  | succ n ih =>
    intro g0 cs h0 pr hpr
    simp only [collectAux] at hpr
    cases hfm : findMatch cs with
    | none =>
      rw [hfm] at hpr
      obtain rfl : pr = (g0, cs) := by simpa using hpr
      exact h0
    | some x =>
      obtain ⟨b, g2, rest⟩ := x
      rw [hfm] at hpr
      rcases List.mem_cons.mp hpr with rfl | htail
      · exact h0
      · exact ih g2 rest (findMatch_some_mdSuffix cs b g2 rest hfm) pr htail

theorem mdSuffix_pyStrip {f : Str} (h : mdSuffix f = true) :
    mdSuffix (pyStrip f) = true ∧ pyStrip f ≠ [] := by
  obtain ⟨pre, hpre⟩ : ∃ t, t ++ (".md").toList = f :=
    List.isSuffixOf_iff_suffix.mp h
  obtain ⟨q, hql⟩ : ∃ q, pyStripL f = q ++ (".md").toList := by
    rw [← hpre]
    unfold pyStripL
    rw [List.dropWhile_append]
    by_cases hc : (pre.dropWhile pyWs).isEmpty = true
    · rw [if_pos hc]
      exact ⟨[], by decide⟩
    · rw [if_neg hc]
      exact ⟨pre.dropWhile pyWs, rfl⟩
  have hr : pyStrip f = q ++ (".md").toList := by
    unfold pyStrip
    rw [hql]
    rw [(show (".md").toList = ['.', 'm', 'd'] from rfl)]
    rw [(show (['.', 'm', 'd'] : Str) = ['.', 'm'] ++ ['d'] from rfl),
      ← List.append_assoc]
    exact pyStripR_concat_false (by decide) _
  rw [hr]
  exact ⟨List.isSuffixOf_iff_suffix.mpr ⟨q, rfl⟩, by simp⟩

/-- C10 (confirmed): every pair the parser emits has a non-empty
filename carrying the dot-m-d suffix the delimiter regex enforces,
with no surrounding whitespace, and non-empty content. -/
theorem parse_endpoint_docs_filenames (text f c : Str)
    (hmem : (f, c) ∈ parseEndpointDocs text) :
    f ≠ [] ∧ mdSuffix f = true ∧ pyStrip f = f ∧ c ≠ [] := by
  revert hmem
  simp only [parseEndpointDocs]
  cases hfm : findMatch text with
  | none => intro hmem; simp at hmem
  | some x =>
    obtain ⟨b, g0, rest⟩ := x
    intro hmem
    obtain ⟨a, ha, hstep⟩ := List.mem_filterMap.mp hmem
    obtain ⟨g1, ch⟩ := a
    by_cases hcond : ((pyStrip g1).isEmpty || (pyStrip ch).isEmpty) = true
    · rw [if_pos hcond] at hstep
      exact absurd hstep (by simp)
    · rw [if_neg hcond] at hstep
      obtain ⟨rfl, rfl⟩ : pyStrip g1 = f ∧ pyStrip ch = c := by
        simpa using hstep
      have hempty : (pyStrip g1).isEmpty = false ∧ (pyStrip ch).isEmpty = false := by
        simpa [Bool.or_eq_true] using hcond
      have hg1 : mdSuffix g1 = true :=
        collectAux_mdSuffix _ g0 rest
          (findMatch_some_mdSuffix text b g0 rest hfm) (g1, ch) ha
      refine ⟨by simpa using hempty.1, (mdSuffix_pyStrip hg1).1,
        pyStrip_idem g1, by simpa using hempty.2⟩

/-- Witness for C10 at a concrete response. -/
theorem parse_endpoint_docs_filenames_witness :
    ("get-a.md").toList ≠ ([] : Str) ∧
    mdSuffix (("get-a.md").toList) = true ∧
    pyStrip (("get-a.md").toList) = ("get-a.md").toList ∧
    ("hello").toList ≠ ([] : Str) :=
  parse_endpoint_docs_filenames
    (("--- FILE: get-a.md ---\nhello").toList)
    (("get-a.md").toList) (("hello").toList) (by decide)

end Specsmith
